import Mathlib

/-!
# nouns-contracts: the source downloader (`main.go`)

A shallow embedding of `main.go` and the properties of its decoding and
materialization pipeline.

Conventions of the embedding.

* A Go `string` is a finite sequence of bytes (`GoString`).
* A Go function returning `(T, error)` returns an `Outcome T`: a value, a
  returned error, or a run-time fault (a Go run-time panic such as
  "slice bounds out of range", which unwinds the whole program).
* A pointer (`*RawCode`, `*Contract`, `*Optimizer`) is an `Option`: `none` is
  the nil pointer, which the JSON decoder stores for a JSON `null`.  Reading a
  field through a nil pointer is a run-time fault.
* The collaborators outside the repository (the HTTP client, the JSON decoder
  and the operating system) are inputs of the model.
-/

namespace NounsContracts

/-! ## Strings -/

/-- One byte of a Go string. -/
abbrev Byte := Fin 256

/-- Go strings are immutable byte sequences. -/
abbrev GoString := List Byte

/-- ASCII text as a Go string (one byte per character). -/
def ascii (s : String) : GoString :=
  s.toList.map (fun c => Fin.ofNat c.toNat)

/-- The Go slice expression `s[lo:hi]` on a string.  It is defined only when
`0 ≤ lo ≤ hi ≤ len(s)`; otherwise the Go run time raises
"slice bounds out of range", rendered here as `none`. -/
def sliceStr (s : GoString) (lo hi : Int) : Option GoString :=
  if 0 ≤ lo ∧ lo ≤ hi ∧ hi ≤ (s.length : Int) then
    some ((s.drop lo.toNat).take (hi.toNat - lo.toNat))
  else
    none

/-! ## Errors and outcomes -/

/-- The system error carried by an `*os.PathError`. -/
inductive Errno where
  | ENOTDIR
  | EISDIR
  | EIO
  deriving DecidableEq, Repr

/-- Go `error` values met by the program. -/
inductive GoError where
  /-- An error built by `fmt.Errorf`; the payload is its text. -/
  | errorf (text : GoString)
  /-- An error handed back by the HTTP client or by the JSON decoder. -/
  | external (text : GoString)
  /-- An `*os.PathError` with its operation, path and cause. -/
  | pathError (op : GoString) (path : GoString) (cause : Errno)
  deriving DecidableEq, Repr

/-- Result of a Go call of type `(T, error)`: `ok v` is `(v, nil)`, `err e` is
`(nil, e)`, and `fault` is a run-time fault raised during the call. -/
inductive Outcome (α : Type) where
  | ok (value : α)
  | err (e : GoError)
  | fault
  deriving DecidableEq, Repr

/-! ## Data model (`main.go`, lines 144-192) -/

/-- The Go struct `RawCode`. -/
structure RawCode where
  SourceCode : GoString
  Abi : GoString
  ContractName : GoString
  CompilerVersion : GoString
  OptimizationUsed : GoString
  Runs : GoString
  ConstructorArguments : GoString
  EVMVersion : GoString
  Library : GoString
  LicenseType : GoString
  Proxy : GoString
  Implementation : GoString
  SwarmSource : GoString
  deriving DecidableEq, Repr

/-- The Go struct `Response`. -/
structure Response where
  Status : GoString
  Message : GoString
  Codes : List (Option RawCode)
  deriving DecidableEq, Repr

/-- The Go struct `Contract`. -/
structure Contract where
  Content : GoString
  deriving DecidableEq, Repr

/-- One entry of a `map[string]*Contract`: a key and a pointer, which may be
nil. -/
abbrev Entry := GoString × Option Contract

/-- The Go type `Sources`, a `map[string]*Contract`: an association list whose
keys are pairwise distinct.  A map has no iteration order of its own;
every `range` over it visits its entries in some permutation. -/
abbrev Sources := List Entry

/-- The Go struct `Optimizer`. -/
structure Optimizer where
  Enabled : Bool
  Runs : Int
  deriving DecidableEq, Repr

/-- The Go type `OutputSelection`, a `map[string]map[string][]string`. -/
abbrev OutputSelection := List (GoString × List (GoString × List GoString))

/-- A decoded JSON value, as held by a Go `interface{}` (numbers by their
literal text). -/
inductive JsonValue where
  | null
  | bool (b : Bool)
  | number (literal : GoString)
  | str (s : GoString)
  | array (items : List JsonValue)
  | object (members : List (GoString × JsonValue))

/-- The Go type `Libraries`, an `interface{}`; `none` is the nil interface. -/
abbrev Libraries := Option JsonValue

/-- The Go struct `Settings`. -/
structure Settings where
  Optimizer : Option Optimizer
  OutputSelection : OutputSelection
  Libraries : Libraries

/-- The Go struct `SourceCode`. -/
structure SourceCode where
  Language : GoString
  Sources : Sources
  Settings : Settings

/-- A record all of whose fields are empty except the source payload. -/
def RawCode.ofPayload (payload : GoString) : RawCode :=
  { SourceCode := payload, Abi := [], ContractName := [], CompilerVersion := [],
    OptimizationUsed := [], Runs := [], ConstructorArguments := [], EVMVersion := [],
    Library := [], LicenseType := [], Proxy := [], Implementation := [], SwarmSource := [] }

/-! ## Collaborators -/

/-- The collaborators of `getRawContractCode` and `parseContractCode`.

* `apikey` is `os.Getenv("ETHERSCAN_APIKEY")`;
* `httpGet url` is `http.DefaultClient.Get(url)`, giving the response body;
* `decodeResponse body` is `json.NewDecoder(resp.Body).Decode(&Response{})`;
* `unmarshal data` is `json.Unmarshal(data, &SourceCode{})` on a fresh value. -/
structure Env where
  apikey : GoString
  httpGet : GoString → Except GoError GoString
  decodeResponse : GoString → Except GoError Response
  unmarshal : GoString → Except GoError SourceCode

/-! ## `getContractURL`, `getRawContractCode`, `parseContractCode` -/

/-- Source `getContractURL` (lines 97-100): `fmt.Sprintf` with two `%s` verbs. -/
def getContractURL (address : GoString) (apikey : GoString) : GoString :=
  ascii "https://api.etherscan.io/api?module=contract&action=getsourcecode&address="
    ++ address ++ ascii "&apikey=" ++ apikey

/-- The error of line 124,
`fmt.Errorf("bad status: %s, message: %s", r.Status, r.Status)`:
both verbs are fed `r.Status`. -/
def badStatusError (contractCodeResponse : Response) : GoError :=
  GoError.errorf (ascii "bad status: " ++ contractCodeResponse.Status
    ++ ascii ", message: " ++ contractCodeResponse.Status)

/-- Source `getRawContractCode` (lines 110-128). -/
def getRawContractCode (env : Env) (address : GoString) :
    Outcome (List (Option RawCode)) :=
  let url := getContractURL address env.apikey
  match env.httpGet url with
  | Except.error e => Outcome.err e
  | Except.ok body =>
    match env.decodeResponse body with
    | Except.error e => Outcome.err e
    | Except.ok contractCodeResponse =>
      if contractCodeResponse.Status ≠ ascii "1" then
        Outcome.err (badStatusError contractCodeResponse)
      else
        Outcome.ok contractCodeResponse.Codes

/-- The `for` loop of `parseContractCode` (lines 132-139); `sourceCodes` is the
slice built so far.  A nil `rawCode` faults at `rawCode.SourceCode`. -/
def parseLoop (unmarshal : GoString → Except GoError SourceCode) :
    List (Option RawCode) → List SourceCode → Outcome (List SourceCode)
  | [], sourceCodes => Outcome.ok sourceCodes
  | none :: _, _ => Outcome.fault
  | some rawCode :: rest, sourceCodes =>
    match sliceStr rawCode.SourceCode 1 ((rawCode.SourceCode.length : Int) - 1) with
    | none => Outcome.fault
    | some inner =>
      match unmarshal inner with
      | Except.error e => Outcome.err e
      | Except.ok sourceCode => parseLoop unmarshal rest (sourceCodes ++ [sourceCode])

/-- Source `parseContractCode` (lines 130-142). -/
def parseContractCode (unmarshal : GoString → Except GoError SourceCode)
    (rawCodes : List (Option RawCode)) : Outcome (List SourceCode) :=
  parseLoop unmarshal rawCodes []

/-- An environment in which every request is answered by the envelope `r`. -/
def Env.answering (r : Response) (unmarshal : GoString → Except GoError SourceCode) : Env :=
  { apikey := ascii "KEY"
    httpGet := fun _ => Except.ok []
    decodeResponse := fun _ => Except.ok r
    unmarshal := unmarshal }

/-! ## Paths: `targetPath`, `targetDir` and the library functions they call -/

/-- The path separator `/`. -/
def slash : Byte := 47

/-- The byte `.`. -/
def dot : Byte := 46

/-- The parent-directory element `..`. -/
def dotdot : GoString := [dot, dot]

/-- Whether a path begins with the separator (an absolute path). -/
def isRooted (path : GoString) : Bool :=
  path.head? == some slash

/-- The elements of a path: the byte runs between separators (empty runs
included). -/
def splitSlash : GoString → List GoString
  | [] => [[]]
  | b :: rest =>
    if b = slash then [] :: splitSlash rest
    else
      match splitSlash rest with
      | [] => [[b]]
      | e :: es => (b :: e) :: es

/-- Elements joined by single separators. -/
def joinSlash : List GoString → GoString
  | [] => []
  | [e] => e
  | e :: es => e ++ slash :: joinSlash es

/-- Modelled from the spec: one step of the lexical cleaning done by the
`join` of §4.3, which the source takes from the Go standard library
(`path/filepath.Clean`, not part of the repository).  `out` holds the elements
kept so far, the most recent first.  Empty and `.` elements are dropped; `..`
removes the preceding kept element, is dropped at the top of a rooted path,
and is kept at the front of a relative path. -/
def cleanStep (rooted : Bool) (out : List GoString) (e : GoString) : List GoString :=
  if e = [] ∨ e = [dot] then out
  else if e = dotdot then
    match out with
    | [] => if rooted then [] else [dotdot]
    | top :: below => if top = dotdot then dotdot :: out else below
  else e :: out

/-- The elements of the cleaned form of a path, in path order. -/
def pathElems (path : GoString) : List GoString :=
  ((splitSlash path).foldl (cleanStep (isRooted path)) []).reverse

/-- A path written from its rootedness and its elements. -/
def render (rooted : Bool) (elems : List GoString) : GoString :=
  (if rooted then [slash] else []) ++ joinSlash elems

/-- Modelled from the spec: `path/filepath.Clean` of the Go standard library on
a slash-separated platform (not part of the repository): the shortest path
lexically equivalent to `path`; the empty result is written `.`. -/
def Clean (path : GoString) : GoString :=
  if path = [] then [dot]
  else
    let out := render (isRooted path) (pathElems path)
    if out = [] then [dot] else out

/-- Modelled from the spec: the `join` of §4.3, `path/filepath.Join` of the Go
standard library on a slash-separated platform (not part of the repository),
for two elements: leading empty elements are ignored, the rest is joined by
the separator and cleaned.  Nothing is rejected. -/
def Join (dir path : GoString) : GoString :=
  if dir ≠ [] then Clean (dir ++ slash :: path)
  else if path ≠ [] then Clean path
  else []

/-- The part of a path up to and including its last separator. -/
def throughLastSlash (path : GoString) : GoString :=
  (path.reverse.dropWhile (fun b => b ≠ slash)).reverse

/-- Modelled from the spec: `path/filepath.Dir` of the Go standard library on
a slash-separated platform (not part of the repository): everything but the
last element of the path, cleaned. -/
def Dir (path : GoString) : GoString :=
  Clean (throughLastSlash path)

/-- Source `targetPath` (lines 106-108). -/
def targetPath (dir : GoString) (path : GoString) : GoString :=
  Join dir path

/-- Source `targetDir` (lines 102-104). -/
def targetDir (dir : GoString) (path : GoString) : GoString :=
  Dir (targetPath dir path)

/-- The location `target` lies inside the directory `root` (or is `root`
itself): both are absolute or both relative, the cleaned elements of `root`
begin those of `target`, and what follows climbs out through no `..`. -/
def Inside (root target : GoString) : Prop :=
  isRooted target = isRooted root ∧
  pathElems root <+: pathElems target ∧
  dotdot ∉ (pathElems target).drop (pathElems root).length

instance (root target : GoString) : Decidable (Inside root target) := by
  unfold Inside; infer_instance

/-! ## The filesystem -/

/-- The calls the program makes on the operating system. -/
inductive FsOp where
  /-- The call `os.MkdirAll(path, os.ModePerm)`. -/
  | mkdirAll (path : GoString)
  /-- The call `os.Create(path)`. -/
  | create (path : GoString)
  /-- The call `f.Write(data)` on the file just created at `path`. -/
  | write (path : GoString) (data : GoString)
  deriving DecidableEq, Repr

/-- One call made on the operating system and whether it succeeded. -/
structure FsEvent where
  op : FsOp
  succeeded : Bool
  deriving DecidableEq, Repr

/-- Modelled from the spec: the filesystem of §6, which belongs to the
operating system and not to the repository.  Paths are compared as written
(the program only passes cleaned paths; links are not modelled).

* `isDir p` tells whether a directory exists at `p`;
* `file p` is the content of the regular file at `p`, if there is one;
* `refuses op` is the cause for which the operating system turns `op` down
  for a reason outside the model (permissions, quota, device errors). -/
structure FS where
  isDir : GoString → Bool
  file : GoString → Option GoString
  refuses : FsOp → Option Errno

/-- The directories on the way to `path`, itself included, outermost first
(the current directory and the root are left out: they always exist). -/
def ancestors (path : GoString) : List GoString :=
  (pathElems path).inits.tail.map (render (isRooted path))

/-- Modelled from the spec: step 2 of §4.3, `os.MkdirAll` of the Go standard
library: every missing directory on the way to `path` is created, an existing
directory is not an error, and a regular file standing in the way is. -/
def FS.mkdirAll (fs : FS) (path : GoString) : Except GoError FS :=
  match fs.refuses (FsOp.mkdirAll path) with
  | some cause => Except.error (GoError.pathError (ascii "mkdir") path cause)
  | none =>
    if (ancestors path).any (fun a => (fs.file a).isSome) then
      Except.error (GoError.pathError (ascii "mkdir") path Errno.ENOTDIR)
    else
      Except.ok { fs with isDir := fun q => fs.isDir q || decide (q ∈ ancestors path) }

/-- Modelled from the spec: step 3 of §4.3, `os.Create` of the Go standard
library: the file is created, or truncated when it exists; a directory at
`path` is an error. -/
def FS.create (fs : FS) (path : GoString) : Except GoError FS :=
  match fs.refuses (FsOp.create path) with
  | some cause => Except.error (GoError.pathError (ascii "open") path cause)
  | none =>
    if fs.isDir path then
      Except.error (GoError.pathError (ascii "open") path Errno.EISDIR)
    else
      Except.ok { fs with file := fun q => if q = path then some [] else fs.file q }

/-- Modelled from the spec: step 3 of §4.3, `(*os.File).Write` of the Go
standard library on a file that was just created or truncated: the file holds
exactly `data` afterwards; a refused write leaves the file as it was. -/
def FS.write (fs : FS) (path : GoString) (data : GoString) : Except GoError FS :=
  match fs.refuses (FsOp.write path data) with
  | some cause => Except.error (GoError.pathError (ascii "write") path cause)
  | none =>
    Except.ok { fs with file := fun q => if q = path then some data else fs.file q }

/-- The empty filesystem on which no call is refused. -/
def FS.empty : FS :=
  { isDir := fun _ => false, file := fun _ => none, refuses := fun _ => none }

/-! ## `getContractSources` -/

/-- The state of a run of `getContractSources`: what it returns (`ok ()` is a
nil error), the filesystem it leaves, and the calls it made on it, in order. -/
structure Run where
  result : Outcome Unit
  fs : FS
  trace : List FsEvent

/-- The body of the inner loop (lines 80-90) for one map entry.  The errors of
`os.MkdirAll` and `os.Create` are returned; `source.Content` is then read,
which faults when `source` is nil; the result of `f.Write` is dropped.  The
deferred `f.Close()` has no effect on file contents. -/
def writeSource (dir : GoString) (fs : FS) (path : GoString) (source : Option Contract) :
    Run :=
  match fs.mkdirAll (targetDir dir path) with
  | Except.error e =>
    { result := Outcome.err e, fs := fs,
      trace := [⟨FsOp.mkdirAll (targetDir dir path), false⟩] }
  | Except.ok fs1 =>
    match fs1.create (targetPath dir path) with
    | Except.error e =>
      { result := Outcome.err e, fs := fs1,
        trace := [⟨FsOp.mkdirAll (targetDir dir path), true⟩,
                  ⟨FsOp.create (targetPath dir path), false⟩] }
    | Except.ok fs2 =>
      match source with
      | none =>
        { result := Outcome.fault, fs := fs2,
          trace := [⟨FsOp.mkdirAll (targetDir dir path), true⟩,
                    ⟨FsOp.create (targetPath dir path), true⟩] }
      | some contract =>
        match fs2.write (targetPath dir path) contract.Content with
        | Except.error _ =>
          { result := Outcome.ok (), fs := fs2,
            trace := [⟨FsOp.mkdirAll (targetDir dir path), true⟩,
                      ⟨FsOp.create (targetPath dir path), true⟩,
                      ⟨FsOp.write (targetPath dir path) contract.Content, false⟩] }
        | Except.ok fs3 =>
          { result := Outcome.ok (), fs := fs3,
            trace := [⟨FsOp.mkdirAll (targetDir dir path), true⟩,
                      ⟨FsOp.create (targetPath dir path), true⟩,
                      ⟨FsOp.write (targetPath dir path) contract.Content, true⟩] }

/-- The inner loop (lines 79-91), `for path, source := range sourceCode.Sources`,
over the entries in the order in which the `range` visits them. -/
def materializeSources (dir : GoString) : List Entry → FS → Run
  | [], fs => { result := Outcome.ok (), fs := fs, trace := [] }
  | (path, source) :: rest, fs =>
    let step := writeSource dir fs path source
    match step.result with
    | Outcome.ok _ =>
      let tail := materializeSources dir rest step.fs
      { result := tail.result, fs := tail.fs, trace := step.trace ++ tail.trace }
    | _ => step

/-- The materialization loop (lines 78-92), `for _, sourceCode := range sourceCodes`;
`visits` lists, for each decoded compiler input in turn, its map entries in
the order in which the inner `range` visits them. -/
def materializeLoop (dir : GoString) : List (List Entry) → FS → Run
  | [], fs => { result := Outcome.ok (), fs := fs, trace := [] }
  | visit :: rest, fs =>
    let inner := materializeSources dir visit fs
    match inner.result with
    | Outcome.ok _ =>
      let tail := materializeLoop dir rest inner.fs
      { result := tail.result, fs := tail.fs, trace := inner.trace ++ tail.trace }
    | _ => inner

/-- The order in which the Go run time visits the entries of each map: the
`i`-th `range` over a map `m` visits `order i m`.  A legal order permutes the
entries of the map. -/
abbrev RangeOrder := Nat → Sources → List Entry

/-- A range order is legal when it permutes the entries of every map. -/
def RangeOrder.Legal (order : RangeOrder) : Prop :=
  ∀ i m, (order i m).Perm m

/-- The entries visited by the loops of `getContractSources`. -/
def visitsOf (order : RangeOrder) (sourceCodes : List SourceCode) :
    List (List Entry) :=
  sourceCodes.enum.map (fun isc => order isc.1 isc.2.Sources)

/-- Source `getContractSources` (lines 67-95). -/
def getContractSources (env : Env) (order : RangeOrder) (fs : FS)
    (address dir : GoString) : Run :=
  match getRawContractCode env address with
  | Outcome.err e => { result := Outcome.err e, fs := fs, trace := [] }
  | Outcome.fault => { result := Outcome.fault, fs := fs, trace := [] }
  | Outcome.ok rawCodes =>
    match parseContractCode env.unmarshal rawCodes with
    | Outcome.err e => { result := Outcome.err e, fs := fs, trace := [] }
    | Outcome.fault => { result := Outcome.fault, fs := fs, trace := [] }
    | Outcome.ok sourceCodes => materializeLoop dir (visitsOf order sourceCodes) fs

/-- The range order that visits every map as it is listed. -/
def RangeOrder.listed : RangeOrder := fun _ m => m

/-- Two files of a compiler input, used in examples. -/
def fooSources : Sources :=
  [(ascii "contracts/Foo.sol", some ⟨ascii "pragma solidity ^0.8.6;"⟩),
   (ascii "interfaces/IFoo.sol", some ⟨ascii "pragma solidity ^0.8.0;"⟩)]

/-- A decoded compiler input with the two files of `fooSources`. -/
def fooInput : SourceCode :=
  { Language := ascii "Solidity"
    Sources := fooSources
    Settings := { Optimizer := some ⟨true, 200⟩, OutputSelection := [], Libraries := none } }

/-- The JSON text of `fooInput`. -/
def fooJson : GoString :=
  ascii ("\x7b\"language\":\"Solidity\",\"sources\":\x7b"
    ++ "\"contracts/Foo.sol\":\x7b\"content\":\"pragma solidity ^0.8.6;\"\x7d,"
    ++ "\"interfaces/IFoo.sol\":\x7b\"content\":\"pragma solidity ^0.8.0;\"\x7d\x7d,"
    ++ "\"settings\":\x7b\"optimizer\":\x7b\"enabled\":true,\"runs\":200\x7d,"
    ++ "\"outputSelection\":null,\"libraries\":null\x7d\x7d")

/-- A decoder that knows the document `fooJson` and rejects every other text. -/
def fooUnmarshal (data : GoString) : Except GoError SourceCode :=
  if data = fooJson then Except.ok fooInput
  else Except.error (GoError.external (ascii "invalid character"))

/-- An encoder that writes every compiler input as `fooJson` (right on
`fooInput`). -/
def fooEncode (_ : SourceCode) : GoString := fooJson

/-- The payload of a record with its first and last byte removed. -/
def stripped (payload : GoString) : GoString :=
  (payload.drop 1).dropLast

/-- A filesystem, empty at first, on which every write is refused with an
input/output error (a full or failing device) and nothing else is. -/
def FS.failingWrites : FS :=
  { isDir := fun _ => false
    file := fun _ => none
    refuses := fun op =>
      match op with
      | FsOp.write _ _ => some Errno.EIO
      | _ => none }

/-- An explorer answering every request with a successful envelope holding
one record, the wrapped JSON text of `fooInput`. -/
def fooEnv : Env :=
  Env.answering
    ⟨ascii "1", ascii "OK",
      [some (RawCode.ofPayload (ascii "\x7b" ++ fooJson ++ ascii "\x7d"))]⟩
    fooUnmarshal

/-- An explorer answering with a successful envelope of two records: the
first has an empty payload, the second a payload that is not JSON. -/
def shortThenBadEnv : Env :=
  Env.answering
    ⟨ascii "1", ascii "OK",
      [some (RawCode.ofPayload []), some (RawCode.ofPayload (ascii "\x7b!\x7d"))]⟩
    fooUnmarshal

/-- An explorer answering with a successful envelope of two records: the
first is the wrapped JSON text of `fooInput`, the second is not JSON. -/
def goodThenBadEnv : Env :=
  Env.answering
    ⟨ascii "1", ascii "OK",
      [some (RawCode.ofPayload (ascii "\x7b" ++ fooJson ++ ascii "\x7d")),
       some (RawCode.ofPayload (ascii "\x7b!\x7d"))]⟩
    fooUnmarshal

/-! ## Vocabulary of the statements about paths -/

/-- The elements of a path cleaned as a relative path, whatever separators it
begins with: what is left of the path once every `..` has cancelled the
element before it.  It begins with `..` exactly when the path climbs above
the directory it starts from. -/
def relElems (path : GoString) : List GoString :=
  ((splitSlash path).foldl (cleanStep false) []).reverse

/-- The shape of the elements kept by the cleaning, the most recent first:
each is non-empty, is not `.` and holds no separator; a rooted path keeps no
`..`; and a `..` only stands on other `..` (they all sit at the front of the
path). -/
def NormalStack (rooted : Bool) (out : List GoString) : Prop :=
  (∀ e ∈ out, e ≠ [] ∧ e ≠ [dot] ∧ slash ∉ e) ∧
  (rooted = true → dotdot ∉ out) ∧
  List.Chain' (fun upper lower => upper = dotdot → lower = dotdot) out

/-! ## Vocabulary of the statements about materialization -/

/-- Every call of the trace succeeded. -/
def AllSucceeded (trace : List FsEvent) : Prop :=
  ∀ e ∈ trace, e.succeeded = true

instance (trace : List FsEvent) : Decidable (AllSucceeded trace) := by
  unfold AllSucceeded; infer_instance

/-- The paths of the files created by the calls of a trace, in order. -/
def createdPaths (trace : List FsEvent) : List GoString :=
  trace.filterMap (fun e =>
    match e.op with
    | FsOp.create path => if e.succeeded then some path else none
    | _ => none)

/-- The destination of a map entry under the root `dir`. -/
def dest (dir : GoString) (entry : Entry) : GoString :=
  targetPath dir entry.1

/-- The bytes written for a map value that is a file (a nil value has none and
stands for the empty content here; the statements that read contents exclude
nil values). -/
def contentOf : Option Contract → GoString
  | some contract => contract.Content
  | none => []

/-- Every key of the map has a file: no value is nil. -/
def AllFiles (sources : List Entry) : Prop :=
  ∀ entry ∈ sources, entry.2 ≠ none

instance (sources : List Entry) : Decidable (AllFiles sources) := by
  unfold AllFiles; infer_instance

/-- File contents `g` after the entries of `visit` have been written over them
in turn, each at its destination (a later entry overwrites an earlier one). -/
def overlay (dir : GoString) : List Entry →
    (GoString → Option GoString) → GoString → Option GoString
  | [], g => g
  | entry :: rest, g =>
    overlay dir rest (fun q => if q = dest dir entry then some (contentOf entry.2) else g q)

/-- The content last written at `q` by the entries of `visit`, if any of them
has `q` for destination. -/
def lastWrite (dir : GoString) : List Entry → GoString → Option GoString
  | [], _ => none
  | entry :: rest, q =>
    match lastWrite dir rest q with
    | some c => some c
    | none => if q = dest dir entry then some (contentOf entry.2) else none

/-- The range order that visits every map backwards. -/
def RangeOrder.backwards : RangeOrder := fun _ m => m.reverse

/-- A compiler input two of whose keys, `a` and `./a`, are distinct and join
to the same destination. -/
def collidingInput : SourceCode :=
  { Language := ascii "Solidity"
    Sources := [(ascii "a", some ⟨ascii "X"⟩), (ascii "./a", some ⟨ascii "Y"⟩)]
    Settings := { Optimizer := none, OutputSelection := [], Libraries := none } }

/-- A compiler input with the two files `a` and `b`. -/
def twoFilesInput : SourceCode :=
  { Language := ascii "Solidity"
    Sources := [(ascii "a", some ⟨ascii "X"⟩), (ascii "b", some ⟨ascii "Y"⟩)]
    Settings := { Optimizer := none, OutputSelection := [], Libraries := none } }

/-- A compiler input with the file `a` and the key `b` whose value is nil (in
the JSON text the member `b` of `sources` is `null`). -/
def nilEntryInput : SourceCode :=
  { Language := ascii "Solidity"
    Sources := [(ascii "a", some ⟨ascii "X"⟩), (ascii "b", none)]
    Settings := { Optimizer := none, OutputSelection := [], Libraries := none } }

/-- A filesystem, empty at first, on which the creation of `r/b` is refused
and nothing else is. -/
def FS.refusingB : FS :=
  { isDir := fun _ => false
    file := fun _ => none
    refuses := fun op => if op = FsOp.create (ascii "r/b") then some Errno.EIO else none }

/-! ## Theorems -/

/-! ### The slice `SourceCode[1:len(SourceCode)-1]` -/

theorem sliceStr_short (s : GoString) (h : s.length < 2) :
    sliceStr s 1 ((s.length : Int) - 1) = none := by
  unfold sliceStr
  rw [if_neg]
  omega

theorem sliceStr_strip (s : GoString) (h : 2 ≤ s.length) :
    sliceStr s 1 ((s.length : Int) - 1) = some (stripped s) := by
  unfold sliceStr stripped
  rw [if_pos (by omega)]
  congr 1
  rw [List.dropLast_eq_take, List.length_drop]
  congr 1
  omega

theorem sliceStr_wrapped (l r : Byte) (s : GoString) :
    stripped (l :: (s ++ [r])) = s := by
  simp [stripped]

/-! ### `parseContractCode` -/

theorem parseLoop_cons_ok (um : GoString → Except GoError SourceCode) (raw : RawCode)
    (rest : List (Option RawCode)) (acc : List SourceCode) (sc : SourceCode)
    (hlen : 2 ≤ raw.SourceCode.length) (hdec : um (stripped raw.SourceCode) = Except.ok sc) :
    parseLoop um (some raw :: rest) acc = parseLoop um rest (acc ++ [sc]) := by
  simp [parseLoop, sliceStr_strip _ hlen, hdec]

theorem parseLoop_cons_err (um : GoString → Except GoError SourceCode) (raw : RawCode)
    (rest : List (Option RawCode)) (acc : List SourceCode) (e : GoError)
    (hlen : 2 ≤ raw.SourceCode.length) (hdec : um (stripped raw.SourceCode) = Except.error e) :
    parseLoop um (some raw :: rest) acc = Outcome.err e := by
  simp [parseLoop, sliceStr_strip _ hlen, hdec]

theorem parseLoop_cons_short (um : GoString → Except GoError SourceCode) (raw : RawCode)
    (rest : List (Option RawCode)) (acc : List SourceCode)
    (hlen : raw.SourceCode.length < 2) :
    parseLoop um (some raw :: rest) acc = Outcome.fault := by
  simp [parseLoop, sliceStr_short _ hlen]

theorem parseLoop_cons_nil (um : GoString → Except GoError SourceCode)
    (rest : List (Option RawCode)) (acc : List SourceCode) :
    parseLoop um (none :: rest) acc = Outcome.fault := by
  simp [parseLoop]

theorem parseLoop_ok (um : GoString → Except GoError SourceCode) :
    ∀ (rawCodes : List (Option RawCode)) (acc out : List SourceCode),
      parseLoop um rawCodes acc = Outcome.ok out →
      ∃ decoded, out = acc ++ decoded ∧
        List.Forall₂ (fun rc sc => ∃ raw, rc = some raw ∧ 2 ≤ raw.SourceCode.length ∧
          um (stripped raw.SourceCode) = Except.ok sc) rawCodes decoded := by
  intro rawCodes
  induction rawCodes with
  | nil =>
    intro acc out h
    simp only [parseLoop, Outcome.ok.injEq] at h
    exact ⟨[], by simp [h], List.Forall₂.nil⟩
  | cons rc rest ih =>
    intro acc out h
    cases rc with
    | none =>
      rw [parseLoop_cons_nil] at h
      cases h
    | some raw =>
      by_cases hlen : 2 ≤ raw.SourceCode.length
      · cases hdec : um (stripped raw.SourceCode) with
        | error e =>
          rw [parseLoop_cons_err um raw rest acc e hlen hdec] at h
          cases h
        | ok sc =>
          rw [parseLoop_cons_ok um raw rest acc sc hlen hdec] at h
          obtain ⟨decoded, hout, hall⟩ := ih _ _ h
          exact ⟨sc :: decoded, by simp [hout],
            List.Forall₂.cons ⟨raw, rfl, hlen, hdec⟩ hall⟩
      · rw [parseLoop_cons_short um raw rest acc (by omega)] at h
        cases h

theorem parseLoop_decode_failure (um : GoString → Except GoError SourceCode) :
    ∀ (pre : List (Option RawCode)) (bad : RawCode) (post : List (Option RawCode))
      (acc : List SourceCode) (e : GoError),
      (∀ rc ∈ pre, ∃ raw, rc = some raw ∧ 2 ≤ raw.SourceCode.length) →
      2 ≤ bad.SourceCode.length →
      um (stripped bad.SourceCode) = Except.error e →
      ∃ e1, parseLoop um (pre ++ some bad :: post) acc = Outcome.err e1 := by
  intro pre
  induction pre with
  | nil =>
    intro bad post acc e _ hlen hdec
    exact ⟨e, by simpa using parseLoop_cons_err um bad post acc e hlen hdec⟩
  | cons rc rest ih =>
    intro bad post acc e hpre hlen hdec
    obtain ⟨raw, hrc, hraw⟩ := hpre rc (List.mem_cons_self _ _)
    subst hrc
    cases hd : um (stripped raw.SourceCode) with
    | error e0 =>
      exact ⟨e0, by simpa using parseLoop_cons_err um raw _ acc e0 hraw hd⟩
    | ok sc =>
      obtain ⟨e1, h1⟩ := ih bad post (acc ++ [sc]) e
        (fun r hr => hpre r (List.mem_cons_of_mem _ hr)) hlen hdec
      refine ⟨e1, ?_⟩
      rw [List.cons_append, parseLoop_cons_ok um raw _ acc sc hraw hd]
      exact h1

/-- C1 (the code departs from the claim): on a record whose payload has fewer
than 2 bytes, and which the loop reaches first, `parseContractCode` does not
return an error: the slice `SourceCode[1:len(SourceCode)-1]` faults, whatever
the JSON decoder would do. -/
theorem parseContractCode_short_payload_faults
    (unmarshal : GoString → Except GoError SourceCode) (rawCode : RawCode)
    (rest : List (Option RawCode)) (h : rawCode.SourceCode.length < 2) :
    parseContractCode unmarshal (some rawCode :: rest) = Outcome.fault ∧
      ∀ e, parseContractCode unmarshal (some rawCode :: rest) ≠ Outcome.err e := by
  have hf := parseLoop_cons_short unmarshal rawCode rest [] h
  refine ⟨hf, ?_⟩
  intro e he
  rw [parseContractCode, hf] at he
  cases he

/-- C1 at the single record with the empty payload. -/
theorem parseContractCode_short_payload_faults_witness :
    (RawCode.ofPayload []).SourceCode.length < 2 ∧
    (parseContractCode fooUnmarshal [some (RawCode.ofPayload [])] = Outcome.fault ∧
      ∀ e, parseContractCode fooUnmarshal [some (RawCode.ofPayload [])] ≠ Outcome.err e) :=
  ⟨by decide, parseContractCode_short_payload_faults fooUnmarshal (RawCode.ofPayload []) []
    (by decide)⟩

/-! ### `getRawContractCode` -/

theorem getRawContractCode_decoded (env : Env) (address body : GoString) (r : Response)
    (hGet : env.httpGet (getContractURL address env.apikey) = Except.ok body)
    (hDec : env.decodeResponse body = Except.ok r) :
    getRawContractCode env address =
      if r.Status ≠ ascii "1" then Outcome.err (badStatusError r) else Outcome.ok r.Codes := by
  simp only [getRawContractCode, hGet, hDec]

/-- C2 (the code departs from the claim): for a decoded envelope whose status is
not "1", the error returned by `getRawContractCode` is built from the status
alone, written twice; the message does not enter it, so two envelopes with the
same status and different messages yield the same error. -/
theorem getRawContractCode_error_drops_message (env1 env2 : Env)
    (address body1 body2 : GoString) (r1 r2 : Response)
    (hGet1 : env1.httpGet (getContractURL address env1.apikey) = Except.ok body1)
    (hDec1 : env1.decodeResponse body1 = Except.ok r1)
    (hGet2 : env2.httpGet (getContractURL address env2.apikey) = Except.ok body2)
    (hDec2 : env2.decodeResponse body2 = Except.ok r2)
    (hStatus : r1.Status ≠ ascii "1") (hSame : r2.Status = r1.Status) :
    getRawContractCode env1 address =
        Outcome.err (GoError.errorf
          (ascii "bad status: " ++ r1.Status ++ ascii ", message: " ++ r1.Status)) ∧
      getRawContractCode env2 address = getRawContractCode env1 address := by
  rw [getRawContractCode_decoded env1 address body1 r1 hGet1 hDec1,
    getRawContractCode_decoded env2 address body2 r2 hGet2 hDec2]
  have h2 : r2.Status ≠ ascii "1" := by rw [hSame]; exact hStatus
  simp [hStatus, h2, badStatusError, hSame]

/-- C2 at two envelopes of status "0" with the messages "NOTOK" and "Invalid API Key". -/
theorem getRawContractCode_error_drops_message_witness :
    (ascii "NOTOK" ≠ ascii "Invalid API Key") ∧
    (getRawContractCode (Env.answering ⟨ascii "0", ascii "NOTOK", []⟩ fooUnmarshal) (ascii "0x0")
        = Outcome.err (GoError.errorf
          (ascii "bad status: " ++ ascii "0" ++ ascii ", message: " ++ ascii "0")) ∧
      getRawContractCode (Env.answering ⟨ascii "0", ascii "Invalid API Key", []⟩ fooUnmarshal)
          (ascii "0x0")
        = getRawContractCode (Env.answering ⟨ascii "0", ascii "NOTOK", []⟩ fooUnmarshal)
          (ascii "0x0")) :=
  ⟨by decide,
    getRawContractCode_error_drops_message
      (Env.answering ⟨ascii "0", ascii "NOTOK", []⟩ fooUnmarshal)
      (Env.answering ⟨ascii "0", ascii "Invalid API Key", []⟩ fooUnmarshal)
      (ascii "0x0") [] [] ⟨ascii "0", ascii "NOTOK", []⟩ ⟨ascii "0", ascii "Invalid API Key", []⟩
      rfl rfl rfl rfl (by decide) rfl⟩

/-- C5: for every decoded envelope whose status is not "1", whatever its message
and records, `getRawContractCode` returns an error and no records, and
`getContractSources` returns that same error, makes no call on the filesystem
(no directory creation, no file creation, no write) and leaves it as it was. -/
theorem getContractSources_bad_status (env : Env) (order : RangeOrder) (fs : FS)
    (address dir body : GoString) (r : Response)
    (hGet : env.httpGet (getContractURL address env.apikey) = Except.ok body)
    (hDec : env.decodeResponse body = Except.ok r)
    (hStatus : r.Status ≠ ascii "1") :
    getRawContractCode env address = Outcome.err (badStatusError r) ∧
      (getContractSources env order fs address dir).result = Outcome.err (badStatusError r) ∧
      (getContractSources env order fs address dir).trace = [] ∧
      (getContractSources env order fs address dir).fs = fs := by
  have h := getRawContractCode_decoded env address body r hGet hDec
  rw [if_pos hStatus] at h
  simp [getContractSources, h]

/-- C5 at an envelope of status "0" that carries a record. -/
theorem getContractSources_bad_status_witness :
    getRawContractCode
        (Env.answering ⟨ascii "0", ascii "NOTOK", [some (RawCode.ofPayload (ascii "junk"))]⟩ fooUnmarshal)
        (ascii "0x0")
      = Outcome.err (badStatusError ⟨ascii "0", ascii "NOTOK", [some (RawCode.ofPayload (ascii "junk"))]⟩) ∧
    (getContractSources
        (Env.answering ⟨ascii "0", ascii "NOTOK", [some (RawCode.ofPayload (ascii "junk"))]⟩ fooUnmarshal)
        RangeOrder.listed FS.empty (ascii "0x0") (ascii "contracts/nouns_token")).result
      = Outcome.err (badStatusError ⟨ascii "0", ascii "NOTOK", [some (RawCode.ofPayload (ascii "junk"))]⟩) ∧
    (getContractSources
        (Env.answering ⟨ascii "0", ascii "NOTOK", [some (RawCode.ofPayload (ascii "junk"))]⟩ fooUnmarshal)
        RangeOrder.listed FS.empty (ascii "0x0") (ascii "contracts/nouns_token")).trace = [] ∧
    (getContractSources
        (Env.answering ⟨ascii "0", ascii "NOTOK", [some (RawCode.ofPayload (ascii "junk"))]⟩ fooUnmarshal)
        RangeOrder.listed FS.empty (ascii "0x0") (ascii "contracts/nouns_token")).fs = FS.empty :=
  getContractSources_bad_status _ RangeOrder.listed FS.empty (ascii "0x0")
    (ascii "contracts/nouns_token") []
    ⟨ascii "0", ascii "NOTOK", [some (RawCode.ofPayload (ascii "junk"))]⟩ rfl rfl (by decide)

/-- C6: round trip of the unwrapper.  For every compiler input `c`, given that
JSON-decoding the JSON encoding of `c` yields `c`, stripping the first and last
byte of the payload "{" + encode(c) + "}" yields exactly encode(c), and
`parseContractCode` on a single record with that payload succeeds with exactly
one compiler input, `c` itself (the same relative paths, the same contents). -/
theorem parseContractCode_round_trip
    (unmarshal : GoString → Except GoError SourceCode) (encode : SourceCode → GoString)
    (c : SourceCode) (rawCode : RawCode)
    (hPayload : rawCode.SourceCode = ascii "\x7b" ++ encode c ++ ascii "\x7d")
    (hCodec : unmarshal (encode c) = Except.ok c) :
    sliceStr rawCode.SourceCode 1 ((rawCode.SourceCode.length : Int) - 1) = some (encode c) ∧
      parseContractCode unmarshal [some rawCode] = Outcome.ok [c] := by
  have hlen : 2 ≤ rawCode.SourceCode.length := by
    rw [hPayload]; simp [ascii]
  have hs : stripped rawCode.SourceCode = encode c := by
    rw [hPayload]
    exact sliceStr_wrapped _ _ _
  refine ⟨by rw [sliceStr_strip _ hlen, hs], ?_⟩
  rw [parseContractCode, parseLoop_cons_ok unmarshal rawCode [] [] c hlen (by rw [hs, hCodec])]
  rfl

/-- C6 at the compiler input `fooInput`, of two files. -/
theorem parseContractCode_round_trip_witness :
    fooInput.Sources.length = 2 ∧
    (sliceStr (RawCode.ofPayload (ascii "\x7b" ++ fooEncode fooInput ++ ascii "\x7d")).SourceCode 1
        (((RawCode.ofPayload (ascii "\x7b" ++ fooEncode fooInput ++ ascii "\x7d")).SourceCode.length
          : Int) - 1) = some (fooEncode fooInput) ∧
      parseContractCode fooUnmarshal
        [some (RawCode.ofPayload (ascii "\x7b" ++ fooEncode fooInput ++ ascii "\x7d"))]
        = Outcome.ok [fooInput]) :=
  ⟨rfl, parseContractCode_round_trip fooUnmarshal fooEncode fooInput
    (RawCode.ofPayload (ascii "\x7b" ++ fooEncode fooInput ++ ascii "\x7d")) rfl (if_pos rfl)⟩

theorem forall2_getElem_some {α β : Type} {R : α → β → Prop} :
    ∀ {l1 : List α} {l2 : List β}, List.Forall₂ R l1 l2 →
      ∀ (i : Nat) (a : α), l1[i]? = some a → ∃ b, l2[i]? = some b ∧ R a b := by
  intro l1 l2 h
  induction h with
  | nil => intro i a hi; simp at hi
  | cons hab _ ih =>
    intro i a hi
    cases i with
    | zero =>
      simp only [List.getElem?_cons_zero, Option.some.injEq] at hi
      subst hi
      exact ⟨_, by simp, hab⟩
    | succ j =>
      simp only [List.getElem?_cons_succ] at hi
      obtain ⟨b, hb, hR⟩ := ih j a hi
      exact ⟨b, by simpa using hb, hR⟩

theorem parseContractCode_fooJson :
    parseContractCode fooUnmarshal
        [some (RawCode.ofPayload (ascii "\x7b" ++ fooJson ++ ascii "\x7d"))]
      = Outcome.ok [fooInput] := by
  have hlen : 2 ≤ (RawCode.ofPayload
      (ascii "\x7b" ++ fooJson ++ ascii "\x7d")).SourceCode.length := by
    simp [RawCode.ofPayload, ascii]
  have hs : stripped (RawCode.ofPayload
      (ascii "\x7b" ++ fooJson ++ ascii "\x7d")).SourceCode = fooJson :=
    sliceStr_wrapped _ _ _
  have hdec : fooUnmarshal (stripped (RawCode.ofPayload
      (ascii "\x7b" ++ fooJson ++ ascii "\x7d")).SourceCode) = Except.ok fooInput := by
    rw [hs]
    exact if_pos rfl
  rw [parseContractCode, parseLoop_cons_ok fooUnmarshal _ [] [] fooInput hlen hdec]
  rfl

/-- C9: for every decoded envelope with status "1", `getRawContractCode` returns
the envelope's record list unchanged; and for every list of raw records on
which `parseContractCode` succeeds, the result has the length of the input and
its i-th element is the decoding of the i-th record's payload with its first
and last byte removed (order kept, no record dropped, duplicated or moved);
the i-th record is then present (not nil) with a payload of at least 2 bytes. -/
theorem records_preserved_in_order :
    (∀ (env : Env) (address body : GoString) (r : Response),
        env.httpGet (getContractURL address env.apikey) = Except.ok body →
        env.decodeResponse body = Except.ok r →
        r.Status = ascii "1" →
        getRawContractCode env address = Outcome.ok r.Codes) ∧
    (∀ (unmarshal : GoString → Except GoError SourceCode) (rawCodes : List (Option RawCode))
        (out : List SourceCode),
        parseContractCode unmarshal rawCodes = Outcome.ok out →
        out.length = rawCodes.length ∧
        ∀ (i : Nat) (record : Option RawCode), rawCodes[i]? = some record →
          ∃ rawCode sourceCode, record = some rawCode ∧ out[i]? = some sourceCode ∧
            2 ≤ rawCode.SourceCode.length ∧
            sliceStr rawCode.SourceCode 1 ((rawCode.SourceCode.length : Int) - 1)
              = some (stripped rawCode.SourceCode) ∧
            unmarshal (stripped rawCode.SourceCode) = Except.ok sourceCode) := by
  constructor
  · intro env address body r hGet hDec hStatus
    rw [getRawContractCode_decoded env address body r hGet hDec]
    simp [hStatus]
  · intro unmarshal rawCodes out h
    obtain ⟨decoded, hout, hall⟩ := parseLoop_ok unmarshal rawCodes [] out h
    simp only [List.nil_append] at hout
    subst hout
    refine ⟨hall.length_eq.symm, ?_⟩
    intro i record hi
    obtain ⟨sc, hsc, raw, hraw, hlen, hdec⟩ := forall2_getElem_some hall i record hi
    exact ⟨raw, sc, hraw, hsc, hlen, sliceStr_strip _ hlen, hdec⟩

/-- C9 at the successful envelope holding the wrapped text of `fooInput`. -/
theorem records_preserved_in_order_witness :
    getRawContractCode fooEnv (ascii "0x0")
        = Outcome.ok [some (RawCode.ofPayload (ascii "\x7b" ++ fooJson ++ ascii "\x7d"))] ∧
    ([fooInput].length = [some (RawCode.ofPayload (ascii "\x7b" ++ fooJson ++ ascii "\x7d"))].length ∧
      ∀ (i : Nat) (record : Option RawCode),
        [some (RawCode.ofPayload (ascii "\x7b" ++ fooJson ++ ascii "\x7d"))][i]? = some record →
        ∃ rawCode sourceCode, record = some rawCode ∧ [fooInput][i]? = some sourceCode ∧
          2 ≤ rawCode.SourceCode.length ∧
          sliceStr rawCode.SourceCode 1 ((rawCode.SourceCode.length : Int) - 1)
            = some (stripped rawCode.SourceCode) ∧
          fooUnmarshal (stripped rawCode.SourceCode) = Except.ok sourceCode) :=
  ⟨records_preserved_in_order.1 fooEnv (ascii "0x0") []
      ⟨ascii "1", ascii "OK", [some (RawCode.ofPayload (ascii "\x7b" ++ fooJson ++ ascii "\x7d"))]⟩
      rfl rfl rfl,
    records_preserved_in_order.2 fooUnmarshal
      [some (RawCode.ofPayload (ascii "\x7b" ++ fooJson ++ ascii "\x7d"))] [fooInput]
      parseContractCode_fooJson⟩

/-! ### Decoding comes before writing -/

/-- C10 (the code departs from the claim): in the list of an empty payload
followed by a payload that fails to decode, one payload fails to decode, yet
`parseContractCode` returns no error: it faults on the slice of the first
record (the defect of C1), and so does `getContractSources`, which has made
no call on the filesystem. -/
theorem getContractSources_short_then_bad_faults :
    (∃ rawCode, some rawCode ∈
          [some (RawCode.ofPayload []), some (RawCode.ofPayload (ascii "\x7b!\x7d"))] ∧
        ∃ e, fooUnmarshal (stripped rawCode.SourceCode) = Except.error e) ∧
      parseContractCode fooUnmarshal
        [some (RawCode.ofPayload []), some (RawCode.ofPayload (ascii "\x7b!\x7d"))]
          = Outcome.fault ∧
      (∀ e, parseContractCode fooUnmarshal
        [some (RawCode.ofPayload []), some (RawCode.ofPayload (ascii "\x7b!\x7d"))]
          ≠ Outcome.err e) ∧
      (getContractSources shortThenBadEnv RangeOrder.listed FS.empty (ascii "0x0")
        (ascii "contracts/nouns_token")).result = Outcome.fault ∧
      (getContractSources shortThenBadEnv RangeOrder.listed FS.empty (ascii "0x0")
        (ascii "contracts/nouns_token")).trace = [] := by
  have hf : parseContractCode fooUnmarshal
      [some (RawCode.ofPayload []), some (RawCode.ofPayload (ascii "\x7b!\x7d"))]
        = Outcome.fault := rfl
  have hr : getRawContractCode shortThenBadEnv (ascii "0x0")
      = Outcome.ok [some (RawCode.ofPayload []), some (RawCode.ofPayload (ascii "\x7b!\x7d"))] :=
    rfl
  have hf2 : parseContractCode shortThenBadEnv.unmarshal
      [some (RawCode.ofPayload []), some (RawCode.ofPayload (ascii "\x7b!\x7d"))]
        = Outcome.fault := rfl
  refine ⟨⟨RawCode.ofPayload (ascii "\x7b!\x7d"), by simp, _, if_neg (by decide)⟩, hf, ?_, ?_, ?_⟩
  · intro e he
    rw [hf] at he
    cases he
  · simp only [getContractSources, hr, hf2]
  · simp only [getContractSources, hr, hf2]

/-- Apart from records that cannot be sliced, a decoding failure stops the run
before any file is written: when a payload of at least 2 bytes fails to decode
and every record before it is present with a payload of at least 2 bytes,
`parseContractCode` returns an error, and `getContractSources` returns that
error, makes no call on the filesystem and leaves it as it was. -/
theorem getContractSources_decode_failure (env : Env) (order : RangeOrder) (fs : FS)
    (address dir : GoString) (pre : List (Option RawCode)) (bad : RawCode)
    (post : List (Option RawCode)) (e : GoError)
    (hRaw : getRawContractCode env address = Outcome.ok (pre ++ some bad :: post))
    (hPre : ∀ record ∈ pre, ∃ rawCode, record = some rawCode ∧ 2 ≤ rawCode.SourceCode.length)
    (hLen : 2 ≤ bad.SourceCode.length)
    (hDec : env.unmarshal (stripped bad.SourceCode) = Except.error e) :
    ∃ e1, parseContractCode env.unmarshal (pre ++ some bad :: post) = Outcome.err e1 ∧
      (getContractSources env order fs address dir).result = Outcome.err e1 ∧
      (getContractSources env order fs address dir).trace = [] ∧
      (getContractSources env order fs address dir).fs = fs := by
  obtain ⟨e1, h1⟩ := parseLoop_decode_failure env.unmarshal pre bad post [] e hPre hLen hDec
  have h2 : parseContractCode env.unmarshal (pre ++ some bad :: post) = Outcome.err e1 := h1
  refine ⟨e1, h2, ?_⟩
  simp [getContractSources, hRaw, h2]

/-- The preceding statement at a well-formed record followed by one that is not
JSON. -/
theorem getContractSources_decode_failure_example :
    ∃ e1, parseContractCode goodThenBadEnv.unmarshal
        ([some (RawCode.ofPayload (ascii "\x7b" ++ fooJson ++ ascii "\x7d"))]
          ++ some (RawCode.ofPayload (ascii "\x7b!\x7d")) :: []) = Outcome.err e1 ∧
      (getContractSources goodThenBadEnv RangeOrder.listed FS.empty (ascii "0x0")
        (ascii "contracts/nouns_token")).result = Outcome.err e1 ∧
      (getContractSources goodThenBadEnv RangeOrder.listed FS.empty (ascii "0x0")
        (ascii "contracts/nouns_token")).trace = [] ∧
      (getContractSources goodThenBadEnv RangeOrder.listed FS.empty (ascii "0x0")
        (ascii "contracts/nouns_token")).fs = FS.empty :=
  getContractSources_decode_failure goodThenBadEnv RangeOrder.listed FS.empty (ascii "0x0")
    (ascii "contracts/nouns_token")
    [some (RawCode.ofPayload (ascii "\x7b" ++ fooJson ++ ascii "\x7d"))]
    (RawCode.ofPayload (ascii "\x7b!\x7d")) []
    (GoError.external (ascii "invalid character"))
    rfl
    (fun record h => by
      simp only [List.mem_singleton] at h
      subst h
      exact ⟨_, rfl, by simp [RawCode.ofPayload, ascii]⟩)
    (by decide)
    (show fooUnmarshal (stripped (ascii "\x7b!\x7d"))
        = Except.error (GoError.external (ascii "invalid character")) from if_neg (by decide))

/-! ### The write whose result is dropped -/

theorem getContractSources_fooEnv (order : RangeOrder) (fs : FS) (address dir : GoString) :
    getContractSources fooEnv order fs address dir
      = materializeLoop dir [order 0 fooSources] fs := by
  have hr : getRawContractCode fooEnv address
      = Outcome.ok [some (RawCode.ofPayload (ascii "\x7b" ++ fooJson ++ ascii "\x7d"))] := rfl
  have hp : parseContractCode fooEnv.unmarshal
      [some (RawCode.ofPayload (ascii "\x7b" ++ fooJson ++ ascii "\x7d"))] = Outcome.ok [fooInput] :=
    parseContractCode_fooJson
  simp only [getContractSources, hr, hp]
  rfl

/-- C3 (the code departs from the claim): on a filesystem that refuses every
write, with an explorer serving the two files of `fooInput`, each `f.Write`
fails, yet `getContractSources` returns a nil error; it goes on to the next
file and leaves both files empty. -/
theorem getContractSources_failed_write_returns_nil :
    (getContractSources fooEnv RangeOrder.listed FS.failingWrites (ascii "0x0")
        (ascii "R")).result = Outcome.ok () ∧
      (getContractSources fooEnv RangeOrder.listed FS.failingWrites (ascii "0x0")
        (ascii "R")).trace =
        [⟨FsOp.mkdirAll (ascii "R/contracts"), true⟩,
         ⟨FsOp.create (ascii "R/contracts/Foo.sol"), true⟩,
         ⟨FsOp.write (ascii "R/contracts/Foo.sol") (ascii "pragma solidity ^0.8.6;"), false⟩,
         ⟨FsOp.mkdirAll (ascii "R/interfaces"), true⟩,
         ⟨FsOp.create (ascii "R/interfaces/IFoo.sol"), true⟩,
         ⟨FsOp.write (ascii "R/interfaces/IFoo.sol") (ascii "pragma solidity ^0.8.0;"), false⟩] ∧
      (getContractSources fooEnv RangeOrder.listed FS.failingWrites (ascii "0x0")
        (ascii "R")).fs.file (ascii "R/contracts/Foo.sol") = some [] := by
  rw [getContractSources_fooEnv]
  decide

/-! ### Splitting and joining on the separator -/

theorem splitSlash_cons_slash (rest : GoString) :
    splitSlash (slash :: rest) = [] :: splitSlash rest := by
  simp [splitSlash]

theorem splitSlash_cons_other (b : Byte) (rest : GoString) (hb : b ≠ slash) :
    ∃ e es, splitSlash rest = e :: es ∧ splitSlash (b :: rest) = (b :: e) :: es := by
  induction rest generalizing b with
  | nil => exact ⟨[], [], rfl, by simp [splitSlash, hb]⟩
  | cons c rest ih =>
    by_cases hc : c = slash
    · subst hc
      exact ⟨[], splitSlash rest, splitSlash_cons_slash rest,
        by simp [splitSlash, hb]⟩
    · obtain ⟨e, es, h1, h2⟩ := ih c hc
      exact ⟨c :: e, es, h2, by
        rw [splitSlash, if_neg hb, h2]⟩

theorem splitSlash_append (a b : GoString) :
    splitSlash (a ++ slash :: b) = splitSlash a ++ splitSlash b := by
  induction a with
  | nil => simp [splitSlash]
  | cons x a ih =>
    by_cases hx : x = slash
    · subst hx
      rw [List.cons_append, splitSlash_cons_slash, splitSlash_cons_slash, ih]
      rfl
    · obtain ⟨e, es, h1, h2⟩ := splitSlash_cons_other x a hx
      obtain ⟨e1, es1, h3, h4⟩ := splitSlash_cons_other x (a ++ slash :: b) hx
      rw [List.cons_append, h4, h2]
      rw [ih, h1] at h3
      simp only [List.cons_append, List.cons.injEq] at h3
      obtain ⟨h5, h6⟩ := h3
      subst h5
      subst h6
      rfl

theorem splitSlash_no_slash (s : GoString) : ∀ e ∈ splitSlash s, slash ∉ e := by
  induction s with
  | nil => intro e he; simp [splitSlash] at he; subst he; simp
  | cons x s ih =>
    intro e he
    by_cases hx : x = slash
    · subst hx
      rw [splitSlash_cons_slash] at he
      rcases List.mem_cons.1 he with rfl | he
      · simp
      · exact ih e he
    · obtain ⟨e1, es, h1, h2⟩ := splitSlash_cons_other x s hx
      rw [h2] at he
      rcases List.mem_cons.1 he with rfl | he
      · intro hmem
        rcases List.mem_cons.1 hmem with h | h
        · exact hx h.symm
        · exact ih e1 (by rw [h1]; exact List.mem_cons_self _ _) h
      · exact ih e (by rw [h1]; exact List.mem_cons_of_mem _ he)

theorem splitSlash_of_no_slash (e : GoString) (h : slash ∉ e) : splitSlash e = [e] := by
  induction e with
  | nil => rfl
  | cons x e ih =>
    have hx : x ≠ slash := fun hx => h (by rw [hx]; exact List.mem_cons_self _ _)
    have he : slash ∉ e := fun he => h (List.mem_cons_of_mem _ he)
    obtain ⟨e1, es, h1, h2⟩ := splitSlash_cons_other x e hx
    rw [ih he] at h1
    simp only [List.cons.injEq] at h1
    rw [h2, ← h1.1, ← h1.2]

theorem joinSlash_cons_cons (e e1 : GoString) (es : List GoString) :
    joinSlash (e :: e1 :: es) = e ++ slash :: joinSlash (e1 :: es) := rfl

theorem splitSlash_joinSlash (elems : List GoString) (hne : elems ≠ [])
    (h : ∀ e ∈ elems, slash ∉ e) : splitSlash (joinSlash elems) = elems := by
  induction elems with
  | nil => exact absurd rfl hne
  | cons e es ih =>
    cases es with
    | nil => exact splitSlash_of_no_slash e (h e (List.mem_cons_self _ _))
    | cons e1 es1 =>
      rw [joinSlash_cons_cons, splitSlash_append,
        splitSlash_of_no_slash e (h e (List.mem_cons_self _ _)),
        ih (by simp) (fun x hx => h x (List.mem_cons_of_mem _ hx))]
      rfl

theorem joinSlash_snoc (init : List GoString) (last : GoString) :
    joinSlash (init ++ [last])
      = (if init = [] then [] else joinSlash init ++ [slash]) ++ last := by
  induction init with
  | nil => simp [joinSlash]
  | cons e es ih =>
    cases es with
    | nil => simp [joinSlash]
    | cons e1 es1 =>
      have ih1 : joinSlash (e1 :: (es1 ++ [last]))
          = joinSlash (e1 :: es1) ++ [slash] ++ last := by
        simpa using ih
      show joinSlash (e :: e1 :: (es1 ++ [last])) = _
      rw [joinSlash_cons_cons, ih1]
      simp [joinSlash_cons_cons]

/-! ### The cleaning of a path -/

theorem cleanStep_skip (rooted : Bool) (out : List GoString) (e : GoString)
    (h : e = [] ∨ e = [dot]) : cleanStep rooted out e = out := by
  simp [cleanStep, h]

theorem cleanStep_real (rooted : Bool) (out : List GoString) (e : GoString)
    (h1 : e ≠ []) (h2 : e ≠ [dot]) (h3 : e ≠ dotdot) : cleanStep rooted out e = e :: out := by
  simp [cleanStep, h1, h2, h3]

theorem cleanStep_dotdot_nil (rooted : Bool) :
    cleanStep rooted [] dotdot = if rooted then [] else [dotdot] := by
  have h1 : ¬ (dotdot = [] ∨ dotdot = [dot]) := by decide
  simp only [cleanStep, h1, if_false, if_true]

theorem cleanStep_dotdot_cons (rooted : Bool) (top : GoString) (below : List GoString) :
    cleanStep rooted (top :: below) dotdot
      = if top = dotdot then dotdot :: top :: below else below := by
  have h1 : ¬ (dotdot = [] ∨ dotdot = [dot]) := by decide
  simp only [cleanStep, h1, if_false, if_true]

theorem cleanStep_above_dotdot (out : List GoString) (e : GoString) :
    cleanStep false (out ++ [dotdot]) e = cleanStep false out e ++ [dotdot] := by
  by_cases hskip : e = [] ∨ e = [dot]
  · rw [cleanStep_skip false _ e hskip, cleanStep_skip false _ e hskip]
  · have h1 : e ≠ [] := fun h1 => hskip (Or.inl h1)
    have h2 : e ≠ [dot] := fun h2 => hskip (Or.inr h2)
    by_cases hd : e = dotdot
    · subst hd
      cases out with
      | nil =>
        rw [List.nil_append, cleanStep_dotdot_cons, cleanStep_dotdot_nil]
        simp
      | cons top below =>
        rw [List.cons_append, cleanStep_dotdot_cons, cleanStep_dotdot_cons]
        by_cases ht : top = dotdot
        · simp [ht]
        · simp [ht]
    · rw [cleanStep_real false _ e h1 h2 hd, cleanStep_real false _ e h1 h2 hd]
      rfl

theorem foldl_cleanStep_above_dotdot :
    ∀ (elems : List GoString) (out : List GoString),
      elems.foldl (cleanStep false) (out ++ [dotdot])
        = elems.foldl (cleanStep false) out ++ [dotdot] := by
  intro elems
  induction elems with
  | nil => intro out; rfl
  | cons e es ih =>
    intro out
    rw [List.foldl_cons, List.foldl_cons, cleanStep_above_dotdot, ih]

theorem foldl_cleanStep_above (rooted : Bool) :
    ∀ (elems : List GoString) (out base : List GoString), dotdot ∉ out →
      dotdot ∉ elems.foldl (cleanStep false) out →
      elems.foldl (cleanStep rooted) (out ++ base)
        = elems.foldl (cleanStep false) out ++ base := by
  intro elems
  induction elems with
  | nil => intro out base _ _; rfl
  | cons e es ih =>
    intro out base hout hfinal
    rw [List.foldl_cons] at hfinal ⊢
    rw [List.foldl_cons]
    by_cases hskip : e = [] ∨ e = [dot]
    · rw [cleanStep_skip false out e hskip] at hfinal ⊢
      rw [cleanStep_skip rooted _ e hskip]
      exact ih out base hout hfinal
    · have h1 : e ≠ [] := fun h1 => hskip (Or.inl h1)
      have h2 : e ≠ [dot] := fun h2 => hskip (Or.inr h2)
      by_cases hd : e = dotdot
      · subst hd
        cases out with
        | nil =>
          rw [cleanStep_dotdot_nil] at hfinal
          have hbot := foldl_cleanStep_above_dotdot es []
          rw [List.nil_append] at hbot
          simp only [Bool.false_eq_true, if_false] at hfinal
          rw [hbot] at hfinal
          exact absurd (List.mem_append_right _ (List.mem_singleton.2 rfl)) hfinal
        | cons top below =>
          have ht : top ≠ dotdot := fun ht => hout (by rw [ht]; exact List.mem_cons_self _ _)
          have hb : dotdot ∉ below := fun hb => hout (List.mem_cons_of_mem _ hb)
          rw [cleanStep_dotdot_cons, if_neg ht] at hfinal ⊢
          rw [List.cons_append, cleanStep_dotdot_cons, if_neg ht]
          exact ih below base hb hfinal
      · rw [cleanStep_real false out e h1 h2 hd] at hfinal ⊢
        rw [cleanStep_real rooted _ e h1 h2 hd]
        have hout1 : dotdot ∉ e :: out := by
          intro hmem
          rcases List.mem_cons.1 hmem with h3 | h3
          · exact hd h3.symm
          · exact hout h3
        exact ih (e :: out) base hout1 hfinal

theorem normalStack_nil (rooted : Bool) : NormalStack rooted [] :=
  ⟨by simp, by simp, List.chain'_nil⟩

theorem normalStack_tail (rooted : Bool) (top : GoString) (below : List GoString)
    (h : NormalStack rooted (top :: below)) : NormalStack rooted below :=
  ⟨fun e he => h.1 e (List.mem_cons_of_mem _ he),
    fun hr hd => h.2.1 hr (List.mem_cons_of_mem _ hd),
    (List.chain'_cons'.1 h.2.2).2⟩

theorem normalStack_step (rooted : Bool) (out : List GoString) (e : GoString)
    (h : NormalStack rooted out) (he : slash ∉ e) :
    NormalStack rooted (cleanStep rooted out e) := by
  by_cases hskip : e = [] ∨ e = [dot]
  · rw [cleanStep_skip rooted out e hskip]
    exact h
  · have h1 : e ≠ [] := fun h1 => hskip (Or.inl h1)
    have h2 : e ≠ [dot] := fun h2 => hskip (Or.inr h2)
    by_cases hd : e = dotdot
    · subst hd
      cases out with
      | nil =>
        rw [cleanStep_dotdot_nil]
        cases rooted with
        | true => exact normalStack_nil true
        | false =>
          refine ⟨?_, by simp, List.chain'_singleton _⟩
          intro x hx
          rw [List.mem_singleton.1 hx]
          exact ⟨h1, h2, he⟩
      | cons top below =>
        rw [cleanStep_dotdot_cons]
        by_cases ht : top = dotdot
        · rw [if_pos ht]
          refine ⟨?_, ?_, ?_⟩
          · intro x hx
            rcases List.mem_cons.1 hx with rfl | hx
            · exact ⟨h1, h2, he⟩
            · exact h.1 x hx
          · intro hr
            exact absurd (by rw [ht]; exact List.mem_cons_self _ _) (h.2.1 hr)
          · exact List.chain'_cons.2 ⟨fun _ => ht, h.2.2⟩
        · rw [if_neg ht]
          exact normalStack_tail rooted top below h
    · rw [cleanStep_real rooted out e h1 h2 hd]
      refine ⟨?_, ?_, ?_⟩
      · intro x hx
        rcases List.mem_cons.1 hx with rfl | hx
        · exact ⟨h1, h2, he⟩
        · exact h.1 x hx
      · intro hr hmem
        rcases List.mem_cons.1 hmem with h3 | h3
        · exact hd h3.symm
        · exact h.2.1 hr h3
      · cases out with
        | nil => exact List.chain'_singleton _
        | cons top below => exact List.chain'_cons.2 ⟨fun h3 => absurd h3 hd, h.2.2⟩

theorem normalStack_foldl (rooted : Bool) :
    ∀ (elems : List GoString) (out : List GoString), NormalStack rooted out →
      (∀ e ∈ elems, slash ∉ e) → NormalStack rooted (elems.foldl (cleanStep rooted) out) := by
  intro elems
  induction elems with
  | nil => intro out h _; exact h
  | cons e es ih =>
    intro out h hs
    rw [List.foldl_cons]
    exact ih _ (normalStack_step rooted out e h (hs e (List.mem_cons_self _ _)))
      (fun x hx => hs x (List.mem_cons_of_mem _ hx))

theorem normalStack_pathElems (path : GoString) :
    NormalStack (isRooted path) (pathElems path).reverse := by
  rw [pathElems, List.reverse_reverse]
  exact normalStack_foldl _ _ _ (normalStack_nil _) (splitSlash_no_slash path)

theorem foldl_cleanStep_replay (rooted : Bool) :
    ∀ (out : List GoString), NormalStack rooted out →
      out.reverse.foldl (cleanStep rooted) [] = out := by
  intro out
  induction out with
  | nil => intro _; rfl
  | cons top below ih =>
    intro h
    have hb := normalStack_tail rooted top below h
    rw [List.reverse_cons, List.foldl_append, ih hb]
    simp only [List.foldl_cons, List.foldl_nil]
    obtain ⟨h1, h2, _⟩ := h.1 top (List.mem_cons_self _ _)
    by_cases hd : top = dotdot
    · subst hd
      cases below with
      | nil =>
        rw [cleanStep_dotdot_nil]
        cases rooted with
        | true => exact absurd (List.mem_cons_self _ _) (h.2.1 rfl)
        | false => rfl
      | cons next rest =>
        rw [cleanStep_dotdot_cons]
        have hn : next = dotdot := (List.chain'_cons.1 h.2.2).1 rfl
        rw [if_pos hn]
    · exact cleanStep_real rooted below top h1 h2 hd

theorem joinSlash_cons_head (b : Byte) (e : GoString) (es : List GoString) :
    ∃ t, joinSlash ((b :: e) :: es) = b :: t := by
  cases es with
  | nil => exact ⟨e, rfl⟩
  | cons e1 es1 => exact ⟨e ++ slash :: joinSlash (e1 :: es1), rfl⟩

theorem pathElems_render (rooted : Bool) (elems : List GoString)
    (h : NormalStack rooted elems.reverse) :
    pathElems (render rooted elems) = elems ∧ isRooted (render rooted elems) = rooted := by
  cases elems with
  | nil =>
    cases rooted with
    | true => exact ⟨by decide, by decide⟩
    | false => exact ⟨by decide, by decide⟩
  | cons e es =>
    have hs : ∀ x ∈ e :: es, slash ∉ x := fun x hx => (h.1 x (List.mem_reverse.2 hx)).2.2
    have hsplit := splitSlash_joinSlash (e :: es) (by simp) hs
    have hreplay := foldl_cleanStep_replay rooted (e :: es).reverse h
    rw [List.reverse_reverse] at hreplay
    obtain ⟨he1, _, he3⟩ := h.1 e (List.mem_reverse.2 (List.mem_cons_self _ _))
    cases e with
    | nil => exact absurd rfl he1
    | cons b e1 =>
      have hb : b ≠ slash := fun hb => he3 (by rw [hb]; exact List.mem_cons_self _ _)
      obtain ⟨t, ht⟩ := joinSlash_cons_head b e1 es
      cases rooted with
      | false =>
        have hr : render false ((b :: e1) :: es) = joinSlash ((b :: e1) :: es) := by
          simp [render]
        have hroot : isRooted (joinSlash ((b :: e1) :: es)) = false := by
          rw [ht]
          simp [isRooted, hb]
        rw [hr]
        refine ⟨?_, hroot⟩
        rw [pathElems, hroot, hsplit, hreplay, List.reverse_reverse]
      | true =>
        have hr : render true ((b :: e1) :: es) = slash :: joinSlash ((b :: e1) :: es) := by
          simp [render]
        have hroot : isRooted (slash :: joinSlash ((b :: e1) :: es)) = true := by
          simp [isRooted]
        rw [hr]
        refine ⟨?_, hroot⟩
        rw [pathElems, hroot, splitSlash_cons_slash, hsplit, List.foldl_cons,
          cleanStep_skip true [] [] (Or.inl rfl), hreplay, List.reverse_reverse]

theorem Clean_spec (path : GoString) :
    pathElems (Clean path) = pathElems path ∧ isRooted (Clean path) = isRooted path := by
  have hr := pathElems_render (isRooted path) (pathElems path) (normalStack_pathElems path)
  unfold Clean
  by_cases hp : path = []
  · subst hp
    exact ⟨by decide, by decide⟩
  · rw [if_neg hp]
    simp only
    by_cases ho : render (isRooted path) (pathElems path) = []
    · rw [if_pos ho]
      rw [ho] at hr
      have h1 : pathElems path = [] := by rw [← hr.1]; decide
      have h2 : isRooted path = false := by rw [← hr.2]; decide
      rw [h1, h2]
      exact ⟨by decide, by decide⟩
    · rw [if_neg ho]
      exact hr

theorem Clean_of_ne_nil (path : GoString) (hp : path ≠ []) :
    Clean path = if render (isRooted path) (pathElems path) = [] then [dot]
      else render (isRooted path) (pathElems path) := by
  simp [Clean, hp]

theorem Clean_ne_nil (path : GoString) : Clean path ≠ [] := by
  by_cases hp : path = []
  · subst hp; decide
  · rw [Clean_of_ne_nil path hp]
    by_cases ho : render (isRooted path) (pathElems path) = []
    · rw [if_pos ho]; simp
    · rw [if_neg ho]; exact ho

theorem Clean_idempotent (path : GoString) : Clean (Clean path) = Clean path := by
  have hs := Clean_spec path
  rw [Clean_of_ne_nil (Clean path) (Clean_ne_nil path), hs.1, hs.2]
  by_cases hp : path = []
  · subst hp
    decide
  · rw [Clean_of_ne_nil path hp]

/-! ### `Join` and `Dir` -/

theorem isRooted_append (a b : GoString) (ha : a ≠ []) : isRooted (a ++ b) = isRooted a := by
  cases a with
  | nil => exact absurd rfl ha
  | cons x a => rfl

theorem targetPath_of_ne_nil (dir path : GoString) (hdir : dir ≠ []) :
    targetPath dir path = Clean (dir ++ slash :: path) := by
  simp [targetPath, Join, hdir]

theorem pathElems_joined (dir path : GoString) (hdir : dir ≠ [])
    (hpath : dotdot ∉ relElems path) :
    pathElems (dir ++ slash :: path) = pathElems dir ++ relElems path := by
  have hfinal : dotdot ∉ (splitSlash path).foldl (cleanStep false) [] :=
    fun h => hpath (List.mem_reverse.2 h)
  have habove := foldl_cleanStep_above (isRooted dir) (splitSlash path) []
    ((splitSlash dir).foldl (cleanStep (isRooted dir)) []) (by simp) hfinal
  rw [List.nil_append] at habove
  rw [pathElems, isRooted_append dir _ hdir, splitSlash_append, List.foldl_append, habove]
  simp [pathElems, relElems]

theorem pathElems_under_dotdot (path : GoString) :
    pathElems (dotdot ++ slash :: path) = dotdot :: relElems path := by
  have hsplit : splitSlash dotdot = [dotdot] := by decide
  have hroot : isRooted (dotdot ++ slash :: path) = false := by
    rw [isRooted_append dotdot _ (by decide)]
    decide
  have hbot := foldl_cleanStep_above_dotdot (splitSlash path) []
  rw [List.nil_append] at hbot
  rw [pathElems, hroot, splitSlash_append, hsplit, List.foldl_append]
  simp only [List.foldl_cons, List.foldl_nil]
  rw [cleanStep_dotdot_nil]
  simp only [Bool.false_eq_true, if_false]
  rw [hbot]
  simp [relElems]

theorem dropWhile_append_of_all {α : Type} (p : α → Bool) :
    ∀ (a b : List α), (∀ x ∈ a, p x = true) → (a ++ b).dropWhile p = b.dropWhile p := by
  intro a
  induction a with
  | nil => intro b _; rfl
  | cons x a ih =>
    intro b h
    rw [List.cons_append, List.dropWhile_cons, if_pos (h x (List.mem_cons_self _ _))]
    exact ih b (fun y hy => h y (List.mem_cons_of_mem _ hy))

theorem throughLastSlash_append (pre last : GoString) (hlast : slash ∉ last)
    (hpre : pre = [] ∨ ∃ init, pre = init ++ [slash]) :
    throughLastSlash (pre ++ last) = pre := by
  unfold throughLastSlash
  rw [List.reverse_append, dropWhile_append_of_all]
  · rcases hpre with rfl | ⟨init, rfl⟩
    · rfl
    · simp
  · intro x hx
    have : x ≠ slash := fun hxs => hlast (by rw [← hxs]; exact List.mem_reverse.1 hx)
    simp [this]

theorem pathElems_append_slash (path : GoString) (hne : path ≠ []) :
    pathElems (path ++ [slash]) = pathElems path ∧ isRooted (path ++ [slash]) = isRooted path := by
  have hroot := isRooted_append path [slash] hne
  refine ⟨?_, hroot⟩
  have hsplit : splitSlash (path ++ [slash]) = splitSlash path ++ [[]] :=
    splitSlash_append path []
  rw [pathElems, hroot, hsplit, List.foldl_append]
  simp only [List.foldl_cons, List.foldl_nil]
  rw [cleanStep_skip _ _ [] (Or.inl rfl)]
  rfl

theorem Dir_Clean (path : GoString) :
    pathElems (Dir (Clean path)) = (pathElems path).dropLast ∧
      isRooted (Dir (Clean path)) = isRooted path := by
  have hN := normalStack_pathElems path
  have hC := Clean_spec (throughLastSlash (Clean path))
  unfold Dir
  rw [hC.1, hC.2]
  have hdot : Clean path = [dot] ∨
      Clean path = render (isRooted path) (pathElems path) := by
    unfold Clean
    by_cases hp : path = []
    · rw [if_pos hp]; exact Or.inl rfl
    · rw [if_neg hp]
      simp only
      by_cases ho : render (isRooted path) (pathElems path) = []
      · rw [if_pos ho]; exact Or.inl rfl
      · rw [if_neg ho]; exact Or.inr rfl
  have hS := Clean_spec path
  rcases hdot with h | h
  · rw [h] at hS ⊢
    have h1 : pathElems path = [] := by rw [← hS.1]; decide
    have h2 : isRooted path = false := by rw [← hS.2]; decide
    rw [h1, h2]
    exact ⟨by decide, by decide⟩
  · rw [h]
    rcases List.eq_nil_or_concat (pathElems path) with hE | ⟨init, last, hE⟩
    · rw [hE]
      cases isRooted path with
      | true => exact ⟨by decide, by decide⟩
      | false => exact ⟨by decide, by decide⟩
    · rw [List.concat_eq_append] at hE
      rw [hE] at hN ⊢
      rw [List.dropLast_concat]
      rw [List.reverse_append, List.reverse_singleton, List.singleton_append] at hN
      have hlast : slash ∉ last := (hN.1 last (List.mem_cons_self _ _)).2.2
      have hI := pathElems_render (isRooted path) init
        (normalStack_tail _ _ _ hN)
      have hrender : render (isRooted path) (init ++ [last])
          = ((if isRooted path then [slash] else [])
              ++ (if init = [] then [] else joinSlash init ++ [slash])) ++ last := by
        simp [render, joinSlash_snoc]
      rw [hrender]
      by_cases hi : init = []
      · subst hi
        cases hroot : isRooted path with
        | true =>
          simp only [if_true, List.append_nil]
          rw [throughLastSlash_append [slash] last hlast (Or.inr ⟨[], rfl⟩)]
          exact ⟨by decide, by decide⟩
        | false =>
          simp only [if_true, List.append_nil]
          rw [show (if false = true then [slash] else ([] : GoString)) = [] from rfl,
            throughLastSlash_append [] last hlast (Or.inl rfl)]
          exact ⟨by decide, by decide⟩
      · have hpre : ((if isRooted path then [slash] else [])
              ++ (if init = [] then [] else joinSlash init ++ [slash]))
            = render (isRooted path) init ++ [slash] := by
          simp [render, hi]
        rw [hpre, throughLastSlash_append _ last hlast (Or.inr ⟨_, rfl⟩)]
        have hne : render (isRooted path) init ≠ [] := by
          intro hnil
          rw [hnil] at hI
          exact hi (by rw [← hI.1]; decide)
        have hA := pathElems_append_slash (render (isRooted path) init) hne
        rw [hA.1, hA.2]
        exact hI

theorem Clean_mem_ancestors (path : GoString) :
    Clean path ∈ ancestors (Clean path) ∨ Clean path = [dot] ∨ Clean path = [slash] := by
  have hs := Clean_spec (Clean path)
  have hid := Clean_idempotent path
  rw [Clean_of_ne_nil (Clean path) (Clean_ne_nil path)] at hid
  have hN := pathElems_render _ _ (normalStack_pathElems (Clean path))
  cases hE : pathElems (Clean path) with
  | nil =>
    rw [hE] at hid
    cases hroot : isRooted (Clean path) with
    | true =>
      rw [hroot] at hid
      exact Or.inr (Or.inr hid.symm)
    | false =>
      rw [hroot] at hid
      exact Or.inr (Or.inl hid.symm)
  | cons e es =>
    refine Or.inl ?_
    have hne : render (isRooted (Clean path)) (pathElems (Clean path)) ≠ [] := by
      intro hnil
      rw [hnil] at hN
      rw [hE] at hN
      have hnilE : pathElems ([] : GoString) = [] := by decide
      rw [hnilE] at hN
      cases hN.1
    rw [if_neg hne] at hid
    unfold ancestors
    rw [hE] at hid ⊢
    rw [List.inits_cons, List.tail_cons]
    refine List.mem_map.2 ⟨e :: es, ?_, hid⟩
    exact List.mem_map.2 ⟨es, (List.mem_inits es es).2 (List.prefix_refl es), rfl⟩

theorem targetDir_mem_ancestors (dir path : GoString) :
    targetDir dir path ∈ ancestors (targetDir dir path) ∨
      targetDir dir path = [dot] ∨ targetDir dir path = [slash] :=
  Clean_mem_ancestors _

/-! ### Where the joined path lands -/

/-- C4, as stated, fails: for the root `contracts/nouns_token` and the key
`../../../etc/passwd`, the joined path is `../etc/passwd` and its parent
`../etc`, both outside the root; nothing is rejected: the materialization
returns a nil error and has written the file there. -/
theorem traversal_counterexample :
    targetPath (ascii "contracts/nouns_token") (ascii "../../../etc/passwd")
        = ascii "../etc/passwd" ∧
      targetDir (ascii "contracts/nouns_token") (ascii "../../../etc/passwd")
        = ascii "../etc" ∧
      ¬ Inside (ascii "contracts/nouns_token")
        (targetPath (ascii "contracts/nouns_token") (ascii "../../../etc/passwd")) ∧
      ¬ Inside (ascii "contracts/nouns_token")
        (targetDir (ascii "contracts/nouns_token") (ascii "../../../etc/passwd")) ∧
      (materializeLoop (ascii "contracts/nouns_token")
        [[(ascii "../../../etc/passwd", some ⟨ascii "x"⟩)]] FS.empty).result = Outcome.ok () ∧
      (materializeLoop (ascii "contracts/nouns_token")
        [[(ascii "../../../etc/passwd", some ⟨ascii "x"⟩)]] FS.empty).fs.file
          (ascii "../etc/passwd") = some (ascii "x") :=
  ⟨by decide, by decide, by decide, by decide, by decide, by decide⟩

/-- C4, amended: no path is rejected, and the join confines every path that
does not climb above the directory it starts from.  For every non-empty
destination root `R` and every relative path `p` in which each `..` element
cancels an earlier element of `p` (cleaned as a relative path, `p` does not
begin with `..`; an absolute-path prefix of `p` is allowed: the join takes `p`
relative to `R`), `targetPath R p` denotes a location inside `R`, and so does
`targetDir R p` when the cleaned `p` is not empty. -/
theorem targetPath_inside (R p : GoString) (hR : R ≠ [])
    (hp : dotdot ∉ relElems p) :
    Inside R (targetPath R p) ∧ (relElems p ≠ [] → Inside R (targetDir R p)) := by
  have hjoin := pathElems_joined R p hR hp
  have hroot := isRooted_append R (slash :: p) hR
  constructor
  · have hC := Clean_spec (R ++ slash :: p)
    rw [targetPath_of_ne_nil R p hR]
    refine ⟨by rw [hC.2, hroot], ?_, ?_⟩
    · rw [hC.1, hjoin]
      exact List.prefix_append _ _
    · rw [hC.1, hjoin, List.drop_left]
      exact hp
  · intro hne
    have hD := Dir_Clean (R ++ slash :: p)
    rw [targetDir, targetPath_of_ne_nil R p hR]
    rw [hjoin, List.dropLast_append_of_ne_nil _ hne] at hD
    refine ⟨by rw [hD.2, hroot], ?_, ?_⟩
    · rw [hD.1]
      exact List.prefix_append _ _
    · rw [hD.1, List.drop_left]
      exact fun h => hp (List.mem_of_mem_dropLast h)

/-- C4, amended, at the root `contracts/nouns_token` and the key
`/lib/../etc/./passwd`, which has an absolute-path prefix and a `..` that
cancels `lib`. -/
theorem targetPath_inside_witness :
    Inside (ascii "contracts/nouns_token")
        (targetPath (ascii "contracts/nouns_token") (ascii "/lib/../etc/./passwd")) ∧
      Inside (ascii "contracts/nouns_token")
        (targetDir (ascii "contracts/nouns_token") (ascii "/lib/../etc/./passwd")) ∧
      targetPath (ascii "contracts/nouns_token") (ascii "/lib/../etc/./passwd")
        = ascii "contracts/nouns_token/etc/passwd" :=
  ⟨(targetPath_inside (ascii "contracts/nouns_token") (ascii "/lib/../etc/./passwd")
      (by decide) (by decide)).1,
    (targetPath_inside (ascii "contracts/nouns_token") (ascii "/lib/../etc/./passwd")
      (by decide) (by decide)).2 (by decide),
    by decide⟩

/-- The class of paths confined by the join cannot be widened: a path that climbs
above the directory it starts from (cleaned as a relative path it begins with
`..`) leaves the root `..`. -/
theorem climbing_path_escapes (p : GoString) (hp : dotdot ∈ relElems p) :
    ¬ Inside dotdot (targetPath dotdot p) := by
  have hC := Clean_spec (dotdot ++ slash :: p)
  have hroot : pathElems dotdot = [dotdot] := by decide
  rw [targetPath_of_ne_nil dotdot p (by decide)]
  intro hin
  have h3 := hin.2.2
  rw [hC.1, pathElems_under_dotdot, hroot] at h3
  exact h3 hp

/-! ### Filesystem calls -/

theorem FS.mkdirAll_ok {fs fs1 : FS} {path : GoString}
    (h : fs.mkdirAll path = Except.ok fs1) :
    fs1.file = fs.file ∧ fs1.refuses = fs.refuses ∧
      ∀ q, fs1.isDir q = (fs.isDir q || decide (q ∈ ancestors path)) := by
  unfold FS.mkdirAll at h
  split at h
  · cases h
  · split at h
    · cases h
    · injection h with h
      subst h
      exact ⟨rfl, rfl, fun _ => rfl⟩

theorem FS.create_ok {fs fs1 : FS} {path : GoString}
    (h : fs.create path = Except.ok fs1) :
    fs1.isDir = fs.isDir ∧ fs1.refuses = fs.refuses ∧
      ∀ q, fs1.file q = if q = path then some [] else fs.file q := by
  unfold FS.create at h
  split at h
  · cases h
  · split at h
    · cases h
    · injection h with h
      subst h
      exact ⟨rfl, rfl, fun _ => rfl⟩

theorem FS.write_ok {fs fs1 : FS} {path data : GoString}
    (h : fs.write path data = Except.ok fs1) :
    fs1.isDir = fs.isDir ∧ fs1.refuses = fs.refuses ∧
      ∀ q, fs1.file q = if q = path then some data else fs.file q := by
  unfold FS.write at h
  split at h
  · cases h
  · injection h with h
    subst h
    exact ⟨rfl, rfl, fun _ => rfl⟩

theorem allSucceeded_append (a b : List FsEvent) :
    AllSucceeded (a ++ b) ↔ AllSucceeded a ∧ AllSucceeded b := by
  simp only [AllSucceeded, List.mem_append]
  constructor
  · intro h
    exact ⟨fun e he => h e (Or.inl he), fun e he => h e (Or.inr he)⟩
  · rintro ⟨ha, hb⟩ e (he | he)
    · exact ha e he
    · exact hb e he

/-! ### One entry -/

theorem writeSource_succeeded (dir : GoString) (fs : FS) (path : GoString) (source : Contract)
    (h : AllSucceeded (writeSource dir fs path (some source)).trace) :
    (writeSource dir fs path (some source)).result = Outcome.ok () ∧
      (writeSource dir fs path (some source)).fs.refuses = fs.refuses ∧
      (∀ q, (writeSource dir fs path (some source)).fs.file q
        = if q = targetPath dir path then some source.Content else fs.file q) ∧
      (∀ q, (writeSource dir fs path (some source)).fs.isDir q
        = (fs.isDir q || decide (q ∈ ancestors (targetDir dir path)))) ∧
      createdPaths (writeSource dir fs path (some source)).trace = [targetPath dir path] := by
  unfold writeSource at h ⊢
  cases hm : fs.mkdirAll (targetDir dir path) with
  | error e =>
    simp only [hm] at h
    exact absurd (h _ (List.mem_singleton.2 rfl)) (by simp)
  | ok fs1 =>
    simp only [hm] at h ⊢
    cases hc : fs1.create (targetPath dir path) with
    | error e =>
      simp only [hc] at h
      exact absurd (h ⟨FsOp.create (targetPath dir path), false⟩ (by simp)) (by simp)
    | ok fs2 =>
      simp only [hc] at h ⊢
      cases hw : fs2.write (targetPath dir path) source.Content with
      | error e =>
        simp only [hw] at h
        exact absurd
          (h ⟨FsOp.write (targetPath dir path) source.Content, false⟩ (by simp)) (by simp)
      | ok fs3 =>
        simp only [hw]
        obtain ⟨mf, mr, md⟩ := FS.mkdirAll_ok hm
        obtain ⟨cd, cr, cf⟩ := FS.create_ok hc
        obtain ⟨wd, wr, wf⟩ := FS.write_ok hw
        refine ⟨trivial, by rw [wr, cr, mr], ?_, ?_, ?_⟩
        · intro q
          rw [wf q]
          by_cases hq : q = targetPath dir path
          · simp [hq]
          · simp only [hq, if_false]
            rw [cf q, if_neg hq, mf]
        · intro q
          rw [wd, cd, md q]
        · simp [createdPaths]

/-- A nil map value: with the directory and the file created, the read of
`source.Content` faults; the file is left empty and nothing is returned. -/
theorem writeSource_nil (dir : GoString) (fs fs1 fs2 : FS) (path : GoString)
    (hm : fs.mkdirAll (targetDir dir path) = Except.ok fs1)
    (hc : fs1.create (targetPath dir path) = Except.ok fs2) :
    (writeSource dir fs path none).result = Outcome.fault ∧
      AllSucceeded (writeSource dir fs path none).trace ∧
      (writeSource dir fs path none).fs.file (targetPath dir path) = some [] := by
  unfold writeSource
  simp only [hm, hc]
  refine ⟨trivial, ?_, ?_⟩
  · intro ev hev
    simp only [List.mem_cons, List.mem_singleton, List.not_mem_nil, or_false] at hev
    rcases hev with h | h <;> rw [h]
  · rw [(FS.create_ok hc).2.2]
    simp

/-! ### The loops -/

theorem materializeSources_cons (dir : GoString) (path : GoString) (source : Option Contract)
    (rest : List Entry) (fs : FS)
    (h : (writeSource dir fs path source).result = Outcome.ok ()) :
    materializeSources dir ((path, source) :: rest) fs =
      { result := (materializeSources dir rest (writeSource dir fs path source).fs).result
        fs := (materializeSources dir rest (writeSource dir fs path source).fs).fs
        trace := (writeSource dir fs path source).trace
          ++ (materializeSources dir rest (writeSource dir fs path source).fs).trace } := by
  simp only [materializeSources, h]

theorem materializeSources_cons_stop (dir : GoString) (path : GoString)
    (source : Option Contract) (rest : List Entry) (fs : FS)
    (h : (writeSource dir fs path source).result ≠ Outcome.ok ()) :
    materializeSources dir ((path, source) :: rest) fs = writeSource dir fs path source := by
  unfold materializeSources
  cases hres : (writeSource dir fs path source).result with
  | ok u => exact absurd hres h
  | err e => simp only [hres]
  | fault => simp only [hres]

theorem materializeSources_trace_head (dir : GoString) (path : GoString)
    (source : Option Contract) (rest : List Entry) (fs : FS) :
    ∃ more, (materializeSources dir ((path, source) :: rest) fs).trace
      = (writeSource dir fs path source).trace ++ more := by
  by_cases h : (writeSource dir fs path source).result = Outcome.ok ()
  · rw [materializeSources_cons dir path source rest fs h]
    exact ⟨_, rfl⟩
  · rw [materializeSources_cons_stop dir path source rest fs h]
    exact ⟨[], by simp⟩

theorem materializeSources_succeeded (dir : GoString) :
    ∀ (visit : List Entry) (fs : FS), AllFiles visit →
      AllSucceeded (materializeSources dir visit fs).trace →
      (materializeSources dir visit fs).result = Outcome.ok () ∧
      (materializeSources dir visit fs).fs.refuses = fs.refuses ∧
      (∀ q, (materializeSources dir visit fs).fs.file q = overlay dir visit fs.file q) ∧
      (∀ q, fs.isDir q = true → (materializeSources dir visit fs).fs.isDir q = true) ∧
      (∀ entry ∈ visit, ∀ d ∈ ancestors (targetDir dir entry.1),
        (materializeSources dir visit fs).fs.isDir d = true) ∧
      createdPaths (materializeSources dir visit fs).trace = visit.map (dest dir) := by
  intro visit
  induction visit with
  | nil =>
    intro fs _ _
    simp [materializeSources, overlay, createdPaths]
  | cons entry rest ih =>
    obtain ⟨path, source⟩ := entry
    intro fs hfiles h
    have hrest : AllFiles rest := fun e he => hfiles e (List.mem_cons_of_mem _ he)
    cases source with
    | none => exact absurd rfl (hfiles (path, none) (List.mem_cons_self _ _))
    | some contract =>
      obtain ⟨more, hmore⟩ := materializeSources_trace_head dir path (some contract) rest fs
      have hstep : AllSucceeded (writeSource dir fs path (some contract)).trace := by
        rw [hmore, allSucceeded_append] at h
        exact h.1
      obtain ⟨sr, sref, sf, sd, sc⟩ := writeSource_succeeded dir fs path contract hstep
      rw [materializeSources_cons dir path (some contract) rest fs sr] at h ⊢
      simp only at h ⊢
      rw [allSucceeded_append] at h
      obtain ⟨tr, tref, tf, td, ta, tc⟩ := ih _ hrest h.2
      refine ⟨tr, by rw [tref, sref], ?_, ?_, ?_, ?_⟩
      · intro q
        rw [tf q]
        simp only [overlay, dest, contentOf]
        congr 1
        funext q1
        exact sf q1
      · intro q hq
        exact td q (by rw [sd q, hq]; rfl)
      · intro entry1 he d hd
        rcases List.mem_cons.1 he with rfl | he
        · exact td d (by rw [sd d]; simp [hd])
        · exact ta entry1 he d hd
      · simp only [createdPaths, List.filterMap_append, List.map_cons] at sc tc ⊢
        rw [sc, tc]
        rfl

theorem materializeLoop_cons (dir : GoString) (visit : List Entry)
    (rest : List (List Entry)) (fs : FS)
    (h : (materializeSources dir visit fs).result = Outcome.ok ()) :
    materializeLoop dir (visit :: rest) fs =
      { result := (materializeLoop dir rest (materializeSources dir visit fs).fs).result
        fs := (materializeLoop dir rest (materializeSources dir visit fs).fs).fs
        trace := (materializeSources dir visit fs).trace
          ++ (materializeLoop dir rest (materializeSources dir visit fs).fs).trace } := by
  simp only [materializeLoop, h]

theorem materializeLoop_cons_stop (dir : GoString) (visit : List Entry)
    (rest : List (List Entry)) (fs : FS)
    (h : (materializeSources dir visit fs).result ≠ Outcome.ok ()) :
    materializeLoop dir (visit :: rest) fs = materializeSources dir visit fs := by
  unfold materializeLoop
  cases hres : (materializeSources dir visit fs).result with
  | ok u => exact absurd hres h
  | err e => simp only [hres]
  | fault => simp only [hres]

theorem materializeLoop_trace_head (dir : GoString) (visit : List Entry)
    (rest : List (List Entry)) (fs : FS) :
    ∃ more, (materializeLoop dir (visit :: rest) fs).trace
      = (materializeSources dir visit fs).trace ++ more := by
  by_cases h : (materializeSources dir visit fs).result = Outcome.ok ()
  · rw [materializeLoop_cons dir visit rest fs h]
    exact ⟨_, rfl⟩
  · rw [materializeLoop_cons_stop dir visit rest fs h]
    exact ⟨[], by simp⟩

theorem overlay_append (dir : GoString) :
    ∀ (a b : List Entry) (g : GoString → Option GoString),
      overlay dir (a ++ b) g = overlay dir b (overlay dir a g) := by
  intro a
  induction a with
  | nil => intro b g; rfl
  | cons entry rest ih =>
    intro b g
    show overlay dir (rest ++ b) _ = _
    exact ih b _

theorem materializeLoop_succeeded (dir : GoString) :
    ∀ (visits : List (List Entry)) (fs : FS), (∀ visit ∈ visits, AllFiles visit) →
      AllSucceeded (materializeLoop dir visits fs).trace →
      (materializeLoop dir visits fs).result = Outcome.ok () ∧
      (materializeLoop dir visits fs).fs.refuses = fs.refuses ∧
      (∀ q, (materializeLoop dir visits fs).fs.file q = overlay dir visits.flatten fs.file q) ∧
      (∀ q, fs.isDir q = true → (materializeLoop dir visits fs).fs.isDir q = true) ∧
      (∀ entry ∈ visits.flatten, ∀ d ∈ ancestors (targetDir dir entry.1),
        (materializeLoop dir visits fs).fs.isDir d = true) ∧
      createdPaths (materializeLoop dir visits fs).trace = visits.flatten.map (dest dir) := by
  intro visits
  induction visits with
  | nil =>
    intro fs _ _
    simp [materializeLoop, overlay, createdPaths]
  | cons visit rest ih =>
    intro fs hfiles h
    obtain ⟨more, hmore⟩ := materializeLoop_trace_head dir visit rest fs
    have hinner : AllSucceeded (materializeSources dir visit fs).trace := by
      rw [hmore, allSucceeded_append] at h
      exact h.1
    obtain ⟨sr, sref, sf, sd, sa, sc⟩ := materializeSources_succeeded dir visit fs
      (hfiles visit (List.mem_cons_self _ _)) hinner
    rw [materializeLoop_cons dir visit rest fs sr] at h ⊢
    simp only at h ⊢
    rw [allSucceeded_append] at h
    obtain ⟨tr, tref, tf, td, ta, tc⟩ :=
      ih _ (fun v hv => hfiles v (List.mem_cons_of_mem _ hv)) h.2
    refine ⟨tr, by rw [tref, sref], ?_, ?_, ?_, ?_⟩
    · intro q
      rw [tf q, List.flatten_cons, overlay_append]
      congr 1
      funext q1
      exact sf q1
    · intro q hq
      exact td q (sd q hq)
    · intro entry he d hd
      rw [List.flatten_cons, List.mem_append] at he
      rcases he with he | he
      · exact td d (sa entry he d hd)
      · exact ta entry he d hd
    · simp only [createdPaths, List.filterMap_append, List.flatten_cons, List.map_append]
        at sc tc ⊢
      rw [sc, tc]

/-! ### Failed directory and file creations are returned -/

theorem writeSource_failed_call (dir : GoString) (fs : FS) (path : GoString)
    (source : Option Contract) (ev : FsEvent)
    (hev : ev ∈ (writeSource dir fs path source).trace) (hfail : ev.succeeded = false)
    (hop : ∀ q data, ev.op ≠ FsOp.write q data) :
    ∃ e, (writeSource dir fs path source).result = Outcome.err e := by
  unfold writeSource at hev ⊢
  cases hm : fs.mkdirAll (targetDir dir path) with
  | error e => exact ⟨e, rfl⟩
  | ok fs1 =>
    simp only [hm] at hev ⊢
    cases hc : fs1.create (targetPath dir path) with
    | error e => exact ⟨e, rfl⟩
    | ok fs2 =>
      simp only [hc] at hev ⊢
      cases source with
      | none =>
        simp only [List.mem_cons, List.mem_singleton, List.not_mem_nil, or_false] at hev
        rcases hev with h | h <;> (rw [h] at hfail; cases hfail)
      | some contract =>
        simp only at hev ⊢
        cases hw : fs2.write (targetPath dir path) contract.Content with
        | error e =>
          simp only [hw, List.mem_cons, List.mem_singleton, List.not_mem_nil, or_false] at hev
          rcases hev with h | h | h
          · rw [h] at hfail; cases hfail
          · rw [h] at hfail; cases hfail
          · exact absurd (by rw [h]) (hop (targetPath dir path) contract.Content)
        | ok fs3 =>
          simp only [hw, List.mem_cons, List.mem_singleton, List.not_mem_nil, or_false] at hev
          rcases hev with h | h | h <;> (rw [h] at hfail; cases hfail)

theorem materializeSources_failed_call (dir : GoString) :
    ∀ (visit : List Entry) (fs : FS) (ev : FsEvent),
      ev ∈ (materializeSources dir visit fs).trace → ev.succeeded = false →
      (∀ q data, ev.op ≠ FsOp.write q data) →
      ∃ e, (materializeSources dir visit fs).result = Outcome.err e := by
  intro visit
  induction visit with
  | nil => intro fs ev hev; simp [materializeSources] at hev
  | cons entry rest ih =>
    obtain ⟨path, source⟩ := entry
    intro fs ev hev hfail hop
    by_cases h : (writeSource dir fs path source).result = Outcome.ok ()
    · rw [materializeSources_cons dir path source rest fs h] at hev ⊢
      simp only [List.mem_append] at hev
      rcases hev with hev | hev
      · obtain ⟨e, he⟩ := writeSource_failed_call dir fs path source ev hev hfail hop
        rw [h] at he
        cases he
      · exact ih _ ev hev hfail hop
    · rw [materializeSources_cons_stop dir path source rest fs h] at hev ⊢
      exact writeSource_failed_call dir fs path source ev hev hfail hop

/-- The sibling calls of the dropped write are checked: when an `os.MkdirAll`
or an `os.Create` fails during the materialization loop, the loop returns an
error. -/
theorem materializeLoop_failed_call (dir : GoString) :
    ∀ (visits : List (List Entry)) (fs : FS) (ev : FsEvent),
      ev ∈ (materializeLoop dir visits fs).trace → ev.succeeded = false →
      (∀ q data, ev.op ≠ FsOp.write q data) →
      ∃ e, (materializeLoop dir visits fs).result = Outcome.err e := by
  intro visits
  induction visits with
  | nil => intro fs ev hev; simp [materializeLoop] at hev
  | cons visit rest ih =>
    intro fs ev hev hfail hop
    by_cases h : (materializeSources dir visit fs).result = Outcome.ok ()
    · rw [materializeLoop_cons dir visit rest fs h] at hev ⊢
      simp only [List.mem_append] at hev
      rcases hev with hev | hev
      · obtain ⟨e, he⟩ := materializeSources_failed_call dir visit fs ev hev hfail hop
        rw [h] at he
        cases he
      · exact ih _ ev hev hfail hop
    · rw [materializeLoop_cons_stop dir visit rest fs h] at hev ⊢
      exact materializeSources_failed_call dir visit fs ev hev hfail hop

/-! ### What the entries write -/

theorem overlay_lastWrite (dir : GoString) :
    ∀ (visit : List Entry) (g : GoString → Option GoString) (q : GoString),
      overlay dir visit g q =
        match lastWrite dir visit q with
        | some c => some c
        | none => g q := by
  intro visit
  induction visit with
  | nil => intro g q; rfl
  | cons entry rest ih =>
    intro g q
    simp only [overlay, lastWrite]
    rw [ih]
    cases lastWrite dir rest q with
    | some c => rfl
    | none =>
      by_cases hq : q = dest dir entry
      · simp [hq]
      · simp [hq]

theorem lastWrite_append (dir : GoString) :
    ∀ (a b : List Entry) (q : GoString),
      lastWrite dir (a ++ b) q =
        match lastWrite dir b q with
        | some c => some c
        | none => lastWrite dir a q := by
  intro a
  induction a with
  | nil =>
    intro b q
    simp only [List.nil_append, lastWrite]
    cases lastWrite dir b q <;> rfl
  | cons entry rest ih =>
    intro b q
    simp only [List.cons_append, lastWrite, List.append_eq]
    rw [ih]
    cases lastWrite dir b q with
    | some c => rfl
    | none => rfl

theorem lastWrite_some_mem (dir : GoString) :
    ∀ (visit : List Entry) (q c : GoString),
      lastWrite dir visit q = some c →
      ∃ entry ∈ visit, dest dir entry = q ∧ contentOf entry.2 = c := by
  intro visit
  induction visit with
  | nil => intro q c h; simp [lastWrite] at h
  | cons entry rest ih =>
    intro q c h
    simp only [lastWrite] at h
    cases hr : lastWrite dir rest q with
    | some d =>
      rw [hr] at h
      simp only [Option.some.injEq] at h
      subst h
      obtain ⟨e1, he1, h1, h2⟩ := ih q d hr
      exact ⟨e1, List.mem_cons_of_mem _ he1, h1, h2⟩
    | none =>
      rw [hr] at h
      by_cases hq : q = dest dir entry
      · simp only [hq, if_true, Option.some.injEq] at h
        exact ⟨entry, List.mem_cons_self _ _, hq.symm, h⟩
      · simp [hq] at h

theorem lastWrite_of_mem (dir : GoString) :
    ∀ (visit : List Entry), (visit.map (dest dir)).Nodup →
      ∀ entry ∈ visit, lastWrite dir visit (dest dir entry) = some (contentOf entry.2) := by
  intro visit
  induction visit with
  | nil => intro _ entry he; simp at he
  | cons first rest ih =>
    intro hnd entry he
    rw [List.map_cons, List.nodup_cons] at hnd
    simp only [lastWrite]
    rcases List.mem_cons.1 he with rfl | he
    · cases hr : lastWrite dir rest (dest dir entry) with
      | some d =>
        obtain ⟨e1, he1, h1, _⟩ := lastWrite_some_mem dir rest _ d hr
        exact absurd (List.mem_map.2 ⟨e1, he1, h1⟩) hnd.1
      | none => simp
    · rw [ih hnd.2 entry he]

theorem lastWrite_perm (dir : GoString) (v1 v2 : List Entry)
    (hperm : v1.Perm v2) (hnd : (v1.map (dest dir)).Nodup) (q : GoString) :
    lastWrite dir v1 q = lastWrite dir v2 q := by
  have hnd2 : (v2.map (dest dir)).Nodup := (hperm.map (dest dir)).nodup_iff.1 hnd
  have key : ∀ (a b : List Entry), a.Perm b → (b.map (dest dir)).Nodup →
      ∀ c, lastWrite dir a q = some c → lastWrite dir b q = some c := by
    intro a b hab hb c hc
    obtain ⟨e1, he1, h1, h2⟩ := lastWrite_some_mem dir a q c hc
    have := lastWrite_of_mem dir b hb e1 (hab.mem_iff.1 he1)
    rw [h1, h2] at this
    exact this
  cases h1 : lastWrite dir v1 q with
  | some c => exact (key v1 v2 hperm hnd2 c h1).symm
  | none =>
    cases h2 : lastWrite dir v2 q with
    | none => rfl
    | some c =>
      have := key v2 v1 hperm.symm hnd c h2
      rw [h1] at this
      cases this

theorem lastWrite_join_perm (dir : GoString) (q : GoString) :
    ∀ (inputs : List Sources) (visits1 visits2 : List (List Entry)),
      List.Forall₂ (fun v m => List.Perm v m) visits1 inputs →
      List.Forall₂ (fun v m => List.Perm v m) visits2 inputs →
      (∀ m ∈ inputs, (m.map (dest dir)).Nodup) →
      lastWrite dir visits1.flatten q = lastWrite dir visits2.flatten q := by
  intro inputs
  induction inputs with
  | nil =>
    intro visits1 visits2 h1 h2 _
    cases h1
    cases h2
    rfl
  | cons m ms ih =>
    intro visits1 visits2 h1 h2 hnd
    cases h1 with
    | cons hv1 hr1 =>
      cases h2 with
      | cons hv2 hr2 =>
        rw [List.flatten_cons, List.flatten_cons, lastWrite_append, lastWrite_append,
          ih _ _ hr1 hr2 (fun m1 hm1 => hnd m1 (List.mem_cons_of_mem _ hm1))]
        have hm : (m.map (dest dir)).Nodup := hnd m (List.mem_cons_self _ _)
        rw [lastWrite_perm dir _ _ (hv1.trans hv2.symm)
          ((hv1.map (dest dir)).nodup_iff.2 hm)]

theorem visitsOf_perm (order : RangeOrder) (hLegal : order.Legal) :
    ∀ (sourceCodes : List SourceCode) (n : Nat),
      List.Forall₂ (fun v m => List.Perm v m)
        ((sourceCodes.enumFrom n).map (fun isc => order isc.1 isc.2.Sources))
        (sourceCodes.map (fun sc => sc.Sources)) := by
  intro sourceCodes
  induction sourceCodes with
  | nil => intro n; exact List.Forall₂.nil
  | cons sc rest ih =>
    intro n
    simp only [List.enumFrom_cons, List.map_cons]
    exact List.Forall₂.cons (hLegal n sc.Sources) (ih (n + 1))

theorem visitsOf_legal (order : RangeOrder) (hLegal : order.Legal)
    (sourceCodes : List SourceCode) :
    List.Forall₂ (fun v m => List.Perm v m) (visitsOf order sourceCodes)
      (sourceCodes.map (fun sc => sc.Sources)) :=
  visitsOf_perm order hLegal sourceCodes 0

theorem RangeOrder.listed_legal : RangeOrder.listed.Legal :=
  fun _ m => List.Perm.refl m

theorem RangeOrder.backwards_legal : RangeOrder.backwards.Legal :=
  fun _ m => List.reverse_perm m

theorem allFiles_of_perm (v m : List Entry) (hperm : v.Perm m) (hm : AllFiles m) :
    AllFiles v :=
  fun entry he => hm entry (hperm.mem_iff.1 he)

theorem allFiles_visits :
    ∀ (inputs : List Sources) (visits : List (List Entry)),
      List.Forall₂ (fun v m => List.Perm v m) visits inputs →
      (∀ m ∈ inputs, AllFiles m) → ∀ visit ∈ visits, AllFiles visit := by
  intro inputs
  induction inputs with
  | nil =>
    intro visits h _ visit hv
    cases h
    simp at hv
  | cons m ms ih =>
    intro visits h hm visit hv
    cases h with
    | cons hperm hrest =>
      rcases List.mem_cons.1 hv with rfl | hv
      · exact allFiles_of_perm _ m hperm (hm m (List.mem_cons_self _ _))
      · exact ih _ hrest (fun m1 hm1 => hm m1 (List.mem_cons_of_mem _ hm1)) visit hv

/-! ### Materialization of one sources map -/

/-- C7 (the code departs from the claim): the sources map with the file `a` and
the key `b` whose value is nil has distinct destinations `r/a` and `r/b`.
Visited `b` first on the empty filesystem, with no filesystem call failing,
the loop creates `r` and `r/b`, then faults at `source.Content`: it returns
nothing, `r/b` is left empty and `r/a`, a file of the map, is never written. -/
theorem materialize_nil_source_faults :
    (nilEntryInput.Sources.map (dest (ascii "r"))).Nodup ∧
      RangeOrder.backwards.Legal ∧
      AllSucceeded
        (materializeLoop (ascii "r") (visitsOf RangeOrder.backwards [nilEntryInput])
          FS.empty).trace ∧
      (materializeLoop (ascii "r") (visitsOf RangeOrder.backwards [nilEntryInput])
          FS.empty).result = Outcome.fault ∧
      (materializeLoop (ascii "r") (visitsOf RangeOrder.backwards [nilEntryInput])
          FS.empty).trace =
        [⟨FsOp.mkdirAll (ascii "r"), true⟩, ⟨FsOp.create (ascii "r/b"), true⟩] ∧
      (materializeLoop (ascii "r") (visitsOf RangeOrder.backwards [nilEntryInput])
          FS.empty).fs.file (ascii "r/b") = some [] ∧
      (materializeLoop (ascii "r") (visitsOf RangeOrder.backwards [nilEntryInput])
          FS.empty).fs.file (ascii "r/a") = none :=
  ⟨by decide, RangeOrder.backwards_legal, by decide, by decide, by decide, by decide,
    by decide⟩

/-- Apart from nil map values, the materialization writes every file.  For
every destination root `R` and every sources map in which every key has a
file and whose keys join to pairwise distinct destinations, visited in any
order, when no filesystem call fails, the materialization returns a nil error
and leaves, for each (path, file) pair, a file at `targetPath R path` (that is
`join(R, path)`) whose content is `file.Content` byte for byte; that file's
parent directory and every directory on the way to it exist (the current
directory `.` and the root `/` always do); directories that existed still do;
no other file is touched; and the files created are those destinations, one
per key (a map with N keys yields N files). -/
theorem materialize_writes_each_file (R : GoString) (fs : FS) (sources : Sources)
    (visit : List Entry) (hVisit : visit.Perm sources)
    (hFiles : AllFiles sources)
    (hDistinct : (sources.map (dest R)).Nodup)
    (hOk : AllSucceeded (materializeLoop R [visit] fs).trace) :
    (materializeLoop R [visit] fs).result = Outcome.ok () ∧
      (∀ path source, (path, some source) ∈ sources →
        (materializeLoop R [visit] fs).fs.file (targetPath R path) = some source.Content) ∧
      (∀ path source, (path, source) ∈ sources →
        ∀ d ∈ ancestors (targetDir R path), (materializeLoop R [visit] fs).fs.isDir d = true) ∧
      (∀ path source, (path, source) ∈ sources →
        (materializeLoop R [visit] fs).fs.isDir (targetDir R path) = true ∨
          targetDir R path = [dot] ∨ targetDir R path = [slash]) ∧
      (∀ d, fs.isDir d = true → (materializeLoop R [visit] fs).fs.isDir d = true) ∧
      (∀ q, q ∉ sources.map (dest R) → (materializeLoop R [visit] fs).fs.file q = fs.file q) ∧
      (createdPaths (materializeLoop R [visit] fs).trace).Perm (sources.map (dest R)) ∧
      (createdPaths (materializeLoop R [visit] fs).trace).length = sources.length := by
  have hvf : ∀ v ∈ [visit], AllFiles v := by
    intro v hv
    rw [List.mem_singleton.1 hv]
    exact allFiles_of_perm visit sources hVisit hFiles
  obtain ⟨hr, _, hf, hd, ha, hc⟩ := materializeLoop_succeeded R [visit] fs hvf hOk
  have hflat : [visit].flatten = visit := by simp
  rw [hflat] at hf ha hc
  have hnd : (visit.map (dest R)).Nodup := ((hVisit.map (dest R)).nodup_iff).2 hDistinct
  refine ⟨hr, ?_, ?_, ?_, hd, ?_, ?_, ?_⟩
  · intro path source hmem
    rw [hf, overlay_lastWrite]
    have := lastWrite_of_mem R visit hnd (path, some source) (hVisit.mem_iff.2 hmem)
    simp only [dest, contentOf] at this
    rw [this]
  · intro path source hmem d hdm
    exact ha (path, source) (hVisit.mem_iff.2 hmem) d hdm
  · intro path source hmem
    rcases targetDir_mem_ancestors R path with h | h | h
    · exact Or.inl (ha (path, source) (hVisit.mem_iff.2 hmem) _ h)
    · exact Or.inr (Or.inl h)
    · exact Or.inr (Or.inr h)
  · intro q hq
    rw [hf, overlay_lastWrite]
    cases hl : lastWrite R visit q with
    | none => rfl
    | some c =>
      obtain ⟨e1, he1, h1, _⟩ := lastWrite_some_mem R visit q c hl
      exact absurd (List.mem_map.2 ⟨e1, hVisit.mem_iff.1 he1, h1⟩) hq
  · rw [hc]
    exact hVisit.map (dest R)
  · rw [hc, List.length_map]
    exact hVisit.length_eq

/-- The preceding statement at the keys `contracts/Foo.sol` and
`interfaces/IFoo.sol` under the root `R`, visited backwards on the empty
filesystem. -/
theorem materialize_writes_each_file_example :
    fooSources.map (dest (ascii "R"))
        = [ascii "R/contracts/Foo.sol", ascii "R/interfaces/IFoo.sol"] ∧
    ((materializeLoop (ascii "R") [fooSources.reverse] FS.empty).result = Outcome.ok () ∧
      (∀ path source, (path, some source) ∈ fooSources →
        (materializeLoop (ascii "R") [fooSources.reverse] FS.empty).fs.file
          (targetPath (ascii "R") path) = some source.Content) ∧
      (∀ path source, (path, source) ∈ fooSources →
        ∀ d ∈ ancestors (targetDir (ascii "R") path),
          (materializeLoop (ascii "R") [fooSources.reverse] FS.empty).fs.isDir d = true) ∧
      (∀ path source, (path, source) ∈ fooSources →
        (materializeLoop (ascii "R") [fooSources.reverse] FS.empty).fs.isDir
            (targetDir (ascii "R") path) = true ∨
          targetDir (ascii "R") path = [dot] ∨ targetDir (ascii "R") path = [slash]) ∧
      (∀ d, FS.empty.isDir d = true →
        (materializeLoop (ascii "R") [fooSources.reverse] FS.empty).fs.isDir d = true) ∧
      (∀ q, q ∉ fooSources.map (dest (ascii "R")) →
        (materializeLoop (ascii "R") [fooSources.reverse] FS.empty).fs.file q
          = FS.empty.file q) ∧
      (createdPaths (materializeLoop (ascii "R") [fooSources.reverse] FS.empty).trace).Perm
        (fooSources.map (dest (ascii "R"))) ∧
      (createdPaths (materializeLoop (ascii "R") [fooSources.reverse] FS.empty).trace).length
        = fooSources.length) :=
  ⟨by decide,
    materialize_writes_each_file (ascii "R") FS.empty fooSources fooSources.reverse
      (List.reverse_perm fooSources) (by decide) (by decide) (by decide)⟩

/-! ### Running the materialization twice -/

/-- C8, as stated, fails.  First: the map with keys `a` and `./a` joins both to
`r/a`; visited as listed the first run leaves "Y" there, visited backwards the
second run leaves "X", with no failed call in either run.  Second: with
distinct destinations `r/a` and `r/b` and the creation of `r/b` refused, a
first run visiting `b` first writes nothing, and a second run visiting `a`
first leaves "X" at `r/a`. -/
theorem idempotence_counterexample :
    (collidingInput.Sources.map Prod.fst).Nodup ∧
      RangeOrder.listed.Legal ∧ RangeOrder.backwards.Legal ∧
      AllSucceeded
        (materializeLoop (ascii "r") (visitsOf RangeOrder.listed [collidingInput])
          FS.empty).trace ∧
      AllSucceeded
        (materializeLoop (ascii "r") (visitsOf RangeOrder.backwards [collidingInput])
          (materializeLoop (ascii "r") (visitsOf RangeOrder.listed [collidingInput])
            FS.empty).fs).trace ∧
      (materializeLoop (ascii "r") (visitsOf RangeOrder.listed [collidingInput])
          FS.empty).fs.file (ascii "r/a") = some (ascii "Y") ∧
      (materializeLoop (ascii "r") (visitsOf RangeOrder.backwards [collidingInput])
          (materializeLoop (ascii "r") (visitsOf RangeOrder.listed [collidingInput])
            FS.empty).fs).fs.file (ascii "r/a") = some (ascii "X") ∧
      (twoFilesInput.Sources.map (dest (ascii "r"))).Nodup ∧
      (materializeLoop (ascii "r") (visitsOf RangeOrder.backwards [twoFilesInput])
          FS.refusingB).fs.file (ascii "r/a") = none ∧
      (materializeLoop (ascii "r") (visitsOf RangeOrder.listed [twoFilesInput])
          (materializeLoop (ascii "r") (visitsOf RangeOrder.backwards [twoFilesInput])
            FS.refusingB).fs).fs.file (ascii "r/a") = some (ascii "X") :=
  ⟨by decide, RangeOrder.listed_legal, RangeOrder.backwards_legal, by decide, by decide,
    by decide, by decide, by decide, by decide, by decide⟩

/-- C8, amended: materialization is idempotent when every key has a file,
destinations are distinct within each map and no call fails.  For every
destination root, every initial filesystem and every list of decoded compiler
inputs in each of whose sources maps every key has a file (no nil value) and
the keys join to pairwise distinct destinations, if no filesystem call fails
in either run, running the materialization loop twice leaves every file with
the same content as running it once, whatever (legal) order the maps are
visited in on each run. -/
theorem materialization_idempotent (R : GoString) (fs : FS) (sourceCodes : List SourceCode)
    (order1 order2 : RangeOrder) (hLegal1 : order1.Legal) (hLegal2 : order2.Legal)
    (hFiles : ∀ sc ∈ sourceCodes, AllFiles sc.Sources)
    (hDistinct : ∀ sc ∈ sourceCodes, (sc.Sources.map (dest R)).Nodup)
    (hOk1 : AllSucceeded (materializeLoop R (visitsOf order1 sourceCodes) fs).trace)
    (hOk2 : AllSucceeded
      (materializeLoop R (visitsOf order2 sourceCodes)
        (materializeLoop R (visitsOf order1 sourceCodes) fs).fs).trace)
    (q : GoString) :
    (materializeLoop R (visitsOf order2 sourceCodes)
        (materializeLoop R (visitsOf order1 sourceCodes) fs).fs).fs.file q
      = (materializeLoop R (visitsOf order1 sourceCodes) fs).fs.file q := by
  have hInputs : ∀ m ∈ sourceCodes.map (fun (sc : SourceCode) => sc.Sources), AllFiles m := by
    intro m hm
    obtain ⟨sc, hsc, rfl⟩ := List.mem_map.1 hm
    exact hFiles sc hsc
  have hv1 := allFiles_visits _ _ (visitsOf_legal order1 hLegal1 sourceCodes) hInputs
  have hv2 := allFiles_visits _ _ (visitsOf_legal order2 hLegal2 sourceCodes) hInputs
  obtain ⟨_, _, hf1, _⟩ := materializeLoop_succeeded R _ fs hv1 hOk1
  obtain ⟨_, _, hf2, _⟩ := materializeLoop_succeeded R _ _ hv2 hOk2
  have hsame : lastWrite R (visitsOf order2 sourceCodes).flatten q
      = lastWrite R (visitsOf order1 sourceCodes).flatten q :=
    lastWrite_join_perm R q (sourceCodes.map (fun (sc : SourceCode) => sc.Sources)) _ _
      (visitsOf_legal order2 hLegal2 sourceCodes) (visitsOf_legal order1 hLegal1 sourceCodes)
      (by
        intro m hm
        obtain ⟨sc, hsc, rfl⟩ := List.mem_map.1 hm
        exact hDistinct sc hsc)
  rw [hf2 q, overlay_lastWrite, hsame, hf1 q, overlay_lastWrite]
  cases lastWrite R (visitsOf order1 sourceCodes).flatten q <;> rfl

/-- C8, amended, at two compiler inputs visited as listed and then backwards,
read at `R/contracts/Foo.sol`. -/
theorem materialization_idempotent_witness :
    (materializeLoop (ascii "R") (visitsOf RangeOrder.backwards [fooInput, twoFilesInput])
        (materializeLoop (ascii "R") (visitsOf RangeOrder.listed [fooInput, twoFilesInput])
          FS.empty).fs).fs.file (ascii "R/contracts/Foo.sol")
      = (materializeLoop (ascii "R") (visitsOf RangeOrder.listed [fooInput, twoFilesInput])
          FS.empty).fs.file (ascii "R/contracts/Foo.sol") :=
  materialization_idempotent (ascii "R") FS.empty [fooInput, twoFilesInput]
    RangeOrder.listed RangeOrder.backwards RangeOrder.listed_legal RangeOrder.backwards_legal
    (by decide) (by decide) (by decide) (by decide) (ascii "R/contracts/Foo.sol")

end NounsContracts
